import Mathlib

/-!
Verification development for the multi-source schema extraction and
consolidation engine of the quasar-goframe generator.

The Go source is shallowly embedded: each Go function of the engine is
translated into a Lean definition of the same name, Go slices become
lists, Go maps become association lists (`List (String × _)`) whose list
order stands in for the map's (unspecified) iteration order, `*T` pointer
fields that may be nil become `Option`, Go `*int` becomes `Option Int`
and Go `*float64` becomes `Option Rat` (the JSON inputs of the program
cannot denote NaN or infinities, so rational comparison agrees with the
float comparison performed by the code).

The Go standard-library string functions used by the engine
(strings.Split, TrimSpace, TrimPrefix/TrimSuffix, ToLower/ToUpper,
ReplaceAll of a single character by the empty string, lexicographic
comparison as used by sort.Strings) are re-implemented here over the
character list of a `String`, so that every definition evaluates by
kernel reduction on concrete inputs.
-/

/-- Character comparison by code point, as Go compares bytes of ASCII text. -/
def chLt (a b : Char) : Bool := a.toNat < b.toNat

/-- Lexicographic strict order on character lists (Go byte-wise string order
restricted to the ASCII inputs the engine handles). -/
def clLt : List Char → List Char → Bool
  | [], [] => false
  | [], _ :: _ => true
  | _ :: _, [] => false
  | a :: as, b :: bs => if a = b then clLt as bs else chLt a b

/-- Strict string order used by sort.Strings / sort.Slice comparators. -/
def strLtB (s t : String) : Bool := clLt s.data t.data

/-- Reflexive string order: the sort relation derived from `strLtB`. -/
def strLeB (s t : String) : Bool := !(strLtB t s)

/-- Boolean test that `p` is a prefix of `s` (strings.HasPrefix). -/
def isPre : List Char → List Char → Bool
  | [], _ => true
  | _ :: _, [] => false
  | p :: ps, c :: cs => p = c && isPre ps cs

/-- Boolean test that `p` is a suffix of `s` (strings.HasSuffix). -/
def isSuf (p s : List Char) : Bool := isPre p.reverse s.reverse

/-- strings.TrimPrefix: remove `p` from the front of `s` when present. -/
def trimPre (s p : String) : String :=
  if isPre p.data s.data then String.mk (s.data.drop p.data.length) else s

/-- strings.TrimSuffix: remove `p` from the end of `s` when present. -/
def trimSuf (s p : String) : String :=
  if isSuf p.data s.data then String.mk (s.data.take (s.data.length - p.data.length)) else s

/-- Split a character list on a separator character; empty fields are kept,
matching strings.Split with a one-character separator. -/
def splitCh (c : Char) : List Char → List (List Char)
  | [] => [[]]
  | a :: as =>
    match splitCh c as with
    | [] => [[]]
    | g :: gs => if a = c then [] :: g :: gs else (a :: g) :: gs

/-- strings.Split with a one-character separator. -/
def splitOnCh (s : String) (c : Char) : List String := (splitCh c s.data).map String.mk

/-- strings.SplitN(s, sep, 2) with a one-character separator: the part before
the first occurrence, and the remainder when the separator occurs at all. -/
def splitFirstCh (c : Char) : List Char → List Char × Option (List Char)
  | [] => ([], none)
  | a :: as =>
    if a = c then ([], some as)
    else
      let r := splitFirstCh c as
      (a :: r.1, r.2)

/-- strings.TrimSpace. -/
def trimSpace (s : String) : String :=
  String.mk (((s.data.dropWhile Char.isWhitespace).reverse.dropWhile Char.isWhitespace).reverse)

/-- strings.Trim with a one-character cutset. -/
def trimCh (s : String) (c : Char) : String :=
  String.mk (((s.data.dropWhile (fun a => a = c)).reverse.dropWhile (fun a => a = c)).reverse)

/-- strings.ToLower on the ASCII names the engine handles. -/
def strToLower (s : String) : String := String.mk (s.data.map Char.toLower)

/-- strings.ToUpper on the ASCII method names the engine handles. -/
def strToUpper (s : String) : String := String.mk (s.data.map Char.toUpper)

/-- strings.ReplaceAll of a one-character pattern by the empty string. -/
def removeCh (s : String) (c : Char) : String :=
  String.mk (s.data.filter (fun a => !(a = c : Bool)))

/-- Capitalization of the first character, as the path heuristic's
strings.ToUpper(last[:1]) + last[1:] does on ASCII. -/
def capFirst (s : String) : String :=
  match s.data with
  | [] => s
  | c :: cs => String.mk (c.toUpper :: cs)

/-- Lookup in an association list standing in for a Go map: first binding wins
(keys are kept unique by all writers below). -/
def lookupA {α : Type} : List (String × α) → String → Option α
  | [], _ => none
  | (k', v) :: rest, k => if k' = k then some v else lookupA rest k

/-- Overwrite the (first) binding of `k`, as a Go map assignment of an
existing key does. -/
def updateAssoc {α : Type} : List (String × α) → String → α → List (String × α)
  | [], _, _ => []
  | (k', v) :: rest, k, w => if k' = k then (k, w) :: rest else (k', v) :: updateAssoc rest k w

/-- The mathematical decimal digit-character expansion of a natural number,
used to reason about `Nat.repr` (which computes the same list through the
fuelled `Nat.toDigitsCore`). -/
def decDigits (n : Nat) : List Char :=
  if n < 10 then [Nat.digitChar n]
  else decDigits (n / 10) ++ [Nat.digitChar (n % 10)]
decreasing_by exact Nat.div_lt_self (by omega) (by omega)

/-- FieldConstraints from the source: machine-usable validation/shape
constraints. Go's `*int` bounds are `Option Int`, `*float64` bounds are
`Option Rat` (see the header note on floats). -/
structure FieldConstraints where
  Required : Bool
  Nullable : Bool
  MinLength : Option Int
  MaxLength : Option Int
  Minimum : Option Rat
  Maximum : Option Rat
  Pattern : String
  Format : String
  Enum : List String
  deriving DecidableEq

/-- ColumnInfo from the source. The Go field `Type` is rendered `Typ`
because `Type` is reserved in Lean. A nil `*FieldConstraints` is `none`. -/
structure ColumnInfo where
  Name : String
  JSONName : String
  Typ : String
  Validation : String
  Description : String
  Additional : String
  Constraints : Option FieldConstraints
  Ref : String
  IsArray : Bool
  Source : String
  deriving DecidableEq

/-- RelationNode from the source. -/
structure RelationNode where
  FieldName : String
  TargetStruct : String
  IsCollection : Bool
  TargetKey : String
  SourceKey : String
  Validation : String
  Description : String
  deriving DecidableEq

/-- OperationInfo from the source. -/
structure OperationInfo where
  Method : String
  Path : String
  OperationID : String
  Summary : String
  Tags : List String
  RequestSchema : String
  ResponseSchema : String
  Source : String
  deriving DecidableEq

/-- TableMetadata from the source. Go's `[]*RelationNode` holds no nil
entries in any record the engine builds, so relations are plain values. -/
structure TableMetadata where
  StructName : String
  NormalizedName : String
  Source : String
  Columns : List ColumnInfo
  Relations : List RelationNode
  Operations : List OperationInfo
  deriving DecidableEq

/-- SchemaMap from the source: a Go map rendered as an association list in
insertion order. -/
abbrev SchemaMap : Type := List (String × TableMetadata)

/-- ConsolidatedSchema from the source. -/
structure ConsolidatedSchema where
  Entities : List (String × TableMetadata)
  EntityList : List TableMetadata
  GeneratedBy : String
  deriving DecidableEq

/-- The suffix table of normalizeEntityName. -/
def entitySuffixList : List String :=
  ["Req", "Request", "Res", "Response", "Input", "Output",
   "Create", "Update", "Add", "Edit", "Delete",
   "Item", "Detail", "List", "Get", "Query", "Form",
   "Dto", "DTO"]

/-- The prefix table of normalizeEntityName. -/
def entityPrefixList : List String := ["V1", "V2", "Api"]

/-- The stripping pass of normalizeEntityName: prefixes, then suffixes,
then the minimal plural `"s"`, exactly in the source's order. -/
def strippedEntityName (name : String) : String :=
  let c1 := entityPrefixList.foldl trimPre name
  let c2 := entitySuffixList.foldl trimSuf c1
  trimSuf c2 "s"

/-- normalizeEntityName from the source: strip, and fall back to the
original name when stripping removed everything. -/
def normalizeEntityName (name : String) : String :=
  if strippedEntityName name = "" then name else strippedEntityName name

/-- The with-sub-tag extraction step of parseWithTag: split the orm tag on
commas, trim each part, take the value of the first part carrying the
`with:` key. -/
def extractWithValue (tag : String) : String :=
  match (splitOnCh tag ',').find? (fun p => isPre "with:".data (trimSpace p).data) with
  | some p => trimPre (trimSpace p) "with:"
  | none => ""

/-- The claim's notion of an orm tag containing a `with:` sub-tag. -/
def hasWithSubtag (tag : String) : Bool :=
  (splitOnCh tag ',').any (fun p => isPre "with:".data (trimSpace p).data)

/-- parseWithTag from the source: extract the `with:` value, split it once
on `=`, trim both sides, default the source key to "id". -/
def parseWithTag (tag : String) : Option RelationNode :=
  let withPart := extractWithValue tag
  if withPart = "" then none
  else
    let kv := splitFirstCh '=' withPart.data
    let targetKey := trimSpace (String.mk kv.1)
    let sourceKey :=
      match kv.2 with
      | some rest => trimSpace (String.mk rest)
      | none => "id"
    some { FieldName := "", TargetStruct := "", IsCollection := false,
           TargetKey := targetKey, SourceKey := sourceKey,
           Validation := "", Description := "" }

/-- constraintsEmpty from the source (the nil case is handled by callers
through `Option`). -/
def constraintsEmpty (c : FieldConstraints) : Bool :=
  if c.Required || c.Nullable then false
  else if c.MinLength.isSome || c.MaxLength.isSome || c.Minimum.isSome || c.Maximum.isSome then false
  else if !(c.Pattern = "" : Bool) || !(c.Format = "" : Bool) then false
  else if c.Enum.length > 0 then false
  else true

/-- pickIntPtrMax from the source. -/
def pickIntPtrMax : Option Int → Option Int → Option Int
  | none, b => b
  | some a, none => some a
  | some a, some b => if b > a then some b else some a

/-- pickIntPtrMin from the source. -/
def pickIntPtrMin : Option Int → Option Int → Option Int
  | none, b => b
  | some a, none => some a
  | some a, some b => if b < a then some b else some a

/-- pickFloatPtrMax from the source. -/
def pickFloatPtrMax : Option Rat → Option Rat → Option Rat
  | none, b => b
  | some a, none => some a
  | some a, some b => if b > a then some b else some a

/-- pickFloatPtrMin from the source. -/
def pickFloatPtrMin : Option Rat → Option Rat → Option Rat
  | none, b => b
  | some a, none => some a
  | some a, some b => if b < a then some b else some a

/-- The field-by-field body of mergeConstraints on two non-nil arguments
(Go's `out := *a` followed by the field updates). -/
def mergeConstraintsCore (a b : FieldConstraints) : FieldConstraints :=
  { a with
    Required := a.Required || b.Required
    Nullable := a.Nullable || b.Nullable
    MinLength := pickIntPtrMax a.MinLength b.MinLength
    MaxLength := pickIntPtrMin a.MaxLength b.MaxLength
    Minimum := pickFloatPtrMax a.Minimum b.Minimum
    Maximum := pickFloatPtrMin a.Maximum b.Maximum
    Pattern := if a.Pattern = "" then b.Pattern else a.Pattern
    Format := if a.Format = "" then b.Format else a.Format
    Enum := if a.Enum.length = 0 && b.Enum.length > 0 then b.Enum else a.Enum }

/-- mergeConstraints from the source, nil rendered as `none`. -/
def mergeConstraints : Option FieldConstraints → Option FieldConstraints → Option FieldConstraints
  | none, none => none
  | none, some b => some b
  | some a, none => some a
  | some a, some b =>
    let out := mergeConstraintsCore a b
    if constraintsEmpty out then none else some out

/-- The claim's larger-of-two combination of optional bounds. -/
def omaxN (a b : Option Int) : Option Int :=
  match a, b with
  | none, x => x
  | x, none => x
  | some x, some y => some (max x y)

/-- The claim's smaller-of-two combination of optional bounds. -/
def ominN (a b : Option Int) : Option Int :=
  match a, b with
  | none, x => x
  | x, none => x
  | some x, some y => some (min x y)

/-- The claim's larger-of-two combination of optional numeric bounds. -/
def omaxQ (a b : Option Rat) : Option Rat :=
  match a, b with
  | none, x => x
  | x, none => x
  | some x, some y => some (max x y)

/-- The claim's smaller-of-two combination of optional numeric bounds. -/
def ominQ (a b : Option Rat) : Option Rat :=
  match a, b with
  | none, x => x
  | x, none => x
  | some x, some y => some (min x y)

/-- columnKey from the source: lowercase, whitespace-trimmed wire name with
underscores and hyphens removed, falling back to the raw name. -/
def columnKey (c : ColumnInfo) : String :=
  let s := if c.JSONName = "" then c.Name else c.JSONName
  removeCh (removeCh (strToLower (trimSpace s)) '_') '-'

/-- relationKey from the source (the nil-pointer case cannot arise here). -/
def relationKey (r : RelationNode) : String :=
  strToLower (trimSpace r.FieldName) ++ "|" ++
  strToLower (trimSpace r.TargetStruct) ++ "|" ++
  strToLower (trimSpace r.TargetKey) ++ "|" ++
  strToLower (trimSpace r.SourceKey)

/-- operationKey from the source. -/
def operationKey (op : OperationInfo) : String :=
  op.Method ++ "|" ++ op.Path ++ "|" ++ op.OperationID

/-- mergeColumn from the source: keep the current non-empty scalar values,
adopt the incoming ones where empty or the "Unknown" sentinel, OR the array
flag, merge constraints. Go performs a sequence of conditional assignments
on a copy of `a`; each assignment writes a field no other condition reads,
so the sequence collapses to this simultaneous record. -/
def mergeColumn (a b : ColumnInfo) : ColumnInfo :=
  { Name := if a.Name = "" then b.Name else a.Name
    JSONName := if a.JSONName = "" then b.JSONName else a.JSONName
    Typ := if (a.Typ = "" ∨ a.Typ = "Unknown") ∧ ¬ (b.Typ = "") then b.Typ else a.Typ
    Validation := if a.Validation = "" then b.Validation else a.Validation
    Description := if a.Description = "" then b.Description else a.Description
    Additional := if a.Additional = "" then b.Additional else a.Additional
    Constraints := mergeConstraints a.Constraints b.Constraints
    Ref := if a.Ref = "" then b.Ref else a.Ref
    IsArray := a.IsArray || b.IsArray
    Source := if a.Source = "" then b.Source else a.Source }

/-- The position the Go column index map resolves a key to: the index map is
written in slice order with later writes overwriting earlier ones, and
appends register the appended position, so a lookup always yields the last
position of the current slice holding that key. -/
def findLastIdx : List ColumnInfo → String → Option Nat
  | [], _ => none
  | c :: cs, k =>
    match findLastIdx cs k with
    | some j => some (j + 1)
    | none => if columnKey c = k then some 0 else none

/-- The loop body of mergeColumns: a key already present is merged in
place at the index map's position, a fresh key is appended, an empty key
is skipped. -/
def mergeColumnStep (cols : List ColumnInfo) (c : ColumnInfo) : List ColumnInfo :=
  let k := columnKey c
  if k = "" then cols
  else
    match findLastIdx cols k with
    | some i => cols.set i (mergeColumn (cols.getD i c) c)
    | none => cols ++ [c]

/-- mergeColumns from the source: walk the incoming columns with the loop
body above. -/
def mergeColumns (dst src : List ColumnInfo) : List ColumnInfo :=
  src.foldl mergeColumnStep dst

/-- The loop body of mergeRelations: the `seen` set is exactly the key set
of the current slice, so deduplication is membership of the key among the
current keys; first occurrence wins. -/
def mergeRelationStep (acc : List RelationNode) (r : RelationNode) : List RelationNode :=
  let k := relationKey r
  if k = "" then acc
  else if k ∈ acc.map relationKey then acc
  else acc ++ [r]

/-- mergeRelations from the source. -/
def mergeRelations (dst src : List RelationNode) : List RelationNode :=
  src.foldl mergeRelationStep dst

/-- The loop body of mergeOperations, by the same seen-set discipline. -/
def mergeOperationStep (acc : List OperationInfo) (op : OperationInfo) : List OperationInfo :=
  let k := operationKey op
  if k = "" then acc
  else if k ∈ acc.map operationKey then acc
  else acc ++ [op]

/-- mergeOperations from the source. -/
def mergeOperations (dst src : List OperationInfo) : List OperationInfo :=
  src.foldl mergeOperationStep dst

/-- cloneTableMetadata from the source (value semantics make the deep copy
a plain copy; Go's nil slice and empty slice both render as `[]`). -/
def cloneTableMetadata (t : TableMetadata) : TableMetadata :=
  { StructName := t.StructName
    NormalizedName := t.NormalizedName
    Source := t.Source
    Columns := t.Columns
    Relations := t.Relations
    Operations := t.Operations }

/-- mergeTableMetadata from the source: mark the destination merged, merge
the three collections, then prefer an OpenAPI-sourced struct name (the
source tag was just set to "merged", so the condition reduces to the
incoming provenance check). -/
def mergeTableMetadata (dst src : TableMetadata) : TableMetadata :=
  let d := { dst with Source := "merged" }
  let d := { d with
    Columns := mergeColumns d.Columns src.Columns
    Relations := mergeRelations d.Relations src.Relations
    Operations := mergeOperations d.Operations src.Operations }
  if d.StructName = "" ∨ (d.Source = "merged" ∧ src.Source = "openapi") then
    if !(src.StructName = "" : Bool) then { d with StructName := src.StructName } else d
  else d

/-- The wire-name sort key of stabilizeTableMetadata's column comparator. -/
def colSortKey (c : ColumnInfo) : String :=
  if c.JSONName = "" then c.Name else c.JSONName

/-- stabilizeTableMetadata from the source: sort columns by wire name and
operations by (path, method); relations are left untouched. Go's sort.Slice
is realized by the stable insertion sort on the comparator's reflexive
closure. -/
def stabilizeTableMetadata (t : TableMetadata) : TableMetadata :=
  { t with
    Columns := t.Columns.insertionSort (fun a b => strLeB (colSortKey a) (colSortKey b) = true)
    Operations := t.Operations.insertionSort (fun a b =>
      (if a.Path = b.Path then strLeB a.Method b.Method else strLtB a.Path b.Path) = true) }

/-- The grouping key of the consolidation loop: the record's normalized
name, recomputed from the struct name when empty. -/
def normForEntry (e : TableMetadata) : String :=
  if e.NormalizedName = "" then normalizeEntityName e.StructName else e.NormalizedName

/-- One iteration of consolidateByNormalizedName's accumulation loop:
merge into the existing record of the normalized name, or clone a fresh
one. -/
def consolidateStep (acc : List (String × TableMetadata)) (e : TableMetadata) :
    List (String × TableMetadata) :=
  let norm := normForEntry e
  if norm = "" then acc
  else
    match lookupA acc norm with
    | some existing => updateAssoc acc norm (mergeTableMetadata existing e)
    | none => acc ++ [(norm, cloneTableMetadata e)]

/-- consolidateByNormalizedName from the source, over the encounter order
of the accumulator's entries (the Go map iteration order): group and merge
by normalized name, stabilize every record, and sort the entity list by
normalized name. -/
def consolidateByNormalizedName (entries : List TableMetadata) : ConsolidatedSchema :=
  let entities := entries.foldl consolidateStep []
  let stabilized := entities.map (fun p => (p.1, stabilizeTableMetadata p.2))
  let list := (stabilized.map Prod.snd).insertionSort
    (fun a b => strLeB a.NormalizedName b.NormalizedName = true)
  { Entities := stabilized, EntityList := list, GeneratedBy := "schema-architect" }

/-- The candidate key sequence of putSchema's collision loop: the raw name,
then name__2, name__3, and so on. -/
def schemaKeyCand (base : String) : Nat → String
  | 0 => base
  | j + 1 => base ++ "__" ++ Nat.repr (j + 2)

/-- The key putSchema stores a record under: the first free candidate.
Go scans the unbounded candidate sequence; the first m.length + 2
candidates already contain a free key (pigeonhole, proved below), so the
bounded scan returns the same key and the fallback arm is unreachable. -/
def findFreeKey (m : SchemaMap) (base : String) : String :=
  match ((List.range (m.length + 2)).map (schemaKeyCand base)).find?
      (fun k => (lookupA m k).isNone) with
  | some k => k
  | none => schemaKeyCand base (m.length + 2)

/-- putSchema from the source: insert under the first free candidate key. -/
def putSchema (m : SchemaMap) (t : TableMetadata) : SchemaMap :=
  m ++ [(findFreeKey m t.StructName, t)]

/-- The scalar (non-recursive) fields of an OpenAPI schema node, grouped so
that the recursive `OASchema` below has a compact constructor; each field
matches the Go `openAPISchema` field of the same meaning. `Type` is
rendered `ty` (reserved word); `Enum []any` is rendered as the list of its
`fmt.Sprint` images, which is how the engine consumes it. -/
structure OASchemaCore where
  ref : String
  ty : String
  format : String
  description : String
  pattern : String
  nullable : Bool
  required : List String
  enumVals : List String
  minLength : Option Int
  maxLength : Option Int
  minimum : Option Rat
  maximum : Option Rat

/-- openAPISchema from the source: a parsed, finite schema tree. Nil
`*openAPISchema` pointers are `none`. -/
inductive OASchema where
  | mk (core : OASchemaCore) (properties : List (String × OASchema))
       (items : Option OASchema) (allOf oneOf anyOf : List OASchema)

def OASchema.core : OASchema → OASchemaCore
  | .mk c _ _ _ _ _ => c

def OASchema.properties : OASchema → List (String × OASchema)
  | .mk _ p _ _ _ _ => p

def OASchema.items : OASchema → Option OASchema
  | .mk _ _ i _ _ _ => i

def OASchema.allOf : OASchema → List OASchema
  | .mk _ _ _ a _ _ => a

def OASchema.oneOf : OASchema → List OASchema
  | .mk _ _ _ _ o _ => o

def OASchema.anyOf : OASchema → List OASchema
  | .mk _ _ _ _ _ a => a

def OASchema.ref (s : OASchema) : String := s.core.ref

def OASchema.ty (s : OASchema) : String := s.core.ty

def OASchema.required (s : OASchema) : List String := s.core.required

/-- openAPIMediaType from the source. -/
structure OAMediaType where
  schema : Option OASchema

/-- openAPIResponse from the source. -/
structure OAResponse where
  description : String
  content : List (String × OAMediaType)

/-- openAPIRequestBody from the source. -/
structure OARequestBody where
  content : List (String × OAMediaType)

/-- openAPIOperation from the source. -/
structure OAOperation where
  operationId : String
  summary : String
  tags : List String
  requestBody : Option OARequestBody
  responses : List (String × OAResponse)

/-- The parsed OpenAPI document: the two members of `openAPISpec` the
engine reads (paths and component schemas), as association lists. -/
structure OASpec where
  paths : List (String × List (String × OAOperation))
  schemas : List (String × OASchema)

/-- openAPIRefName from the source: strip the components prefix, else take
the segment after the last slash, else empty. -/
def openAPIRefName (ref : String) : String :=
  let pfx : String := "#/components/schemas/"
  if isPre pfx.data ref.data then String.mk (ref.data.drop pfx.data.length)
  else
    let parts := splitCh '/' ref.data
    if parts.length ≤ 1 then "" else String.mk (parts.getLastD [])

/-- The mutable state threaded through collectOpenAPIObject: the visited
reference names, the accumulated property map, and the accumulated
required-name set. -/
structure CollectSt where
  visited : List String
  props : List (String × OASchema)
  required : List String

/-- Go's `required[r] = true` map write (set insertion). -/
def addReq (l : List String) (r : String) : List String :=
  if r ∈ l then l else l ++ [r]

/-- Go's `props[k] = v` map write (insert or overwrite). -/
def upsertProp (pr : List (String × OASchema)) (k : String) (v : OASchema) :
    List (String × OASchema) :=
  if (lookupA pr k).isSome then updateAssoc pr k v else pr ++ [(k, v)]

/-- collectOpenAPIObject from the source, with an explicit fuel so the
literal recursion of the Go function is rendered as given: follow a
reference once (marking it visited first, skipping already-visited names,
treating a dangling reference like Go's nil-map lookup), union the
required names, recurse into every allOf branch and into the first
oneOf/anyOf branch, and finally overwrite the property map with the node's
own properties. `none` means the fuel ran out; the termination theorem
below shows a computable fuel bound always suffices. -/
def collectFuel (spec : OASpec) : Nat → OASchema → CollectSt → Option CollectSt
  | 0, _, _ => none
  | n + 1, s, st =>
    if !(s.ref = "" : Bool) then
      let name := openAPIRefName s.ref
      if name = "" then some st
      else if name ∈ st.visited then some st
      else
        let st1 := { st with visited := st.visited ++ [name] }
        match lookupA spec.schemas name with
        | none => some st1
        | some s2 => collectFuel spec n s2 st1
    else
      let st1 := { st with required := s.required.foldl addReq st.required }
      (s.allOf.foldlM (fun acc sub => collectFuel spec n sub acc) st1).bind fun st2 =>
      (match s.oneOf with
       | [] => some st2
       | x :: _ => collectFuel spec n x st2).bind fun st3 =>
      (match s.anyOf with
       | [] => some st3
       | x :: _ => collectFuel spec n x st3).bind fun st4 =>
      some { st4 with
        props := s.properties.foldl
          (fun pr (kv : String × OASchema) => upsertProp pr kv.1 kv.2) st4.props }

/-- The number of component-schema names not yet visited. -/
def unvisitedCount (spec : OASpec) (st : CollectSt) : Nat :=
  ((spec.schemas.map Prod.fst).filter (fun n => decide (¬ n ∈ st.visited))).length

mutual

/-- Size of a parsed schema tree, the structural half of the termination
measure of collectOpenAPIObject. -/
def OASchema.size : OASchema → Nat
  | .mk _ props items al o an =>
    1 + sizePropsOA props + sizeOptOA items + sizeListOA al + sizeListOA o + sizeListOA an

/-- Size of a property map of schema trees. -/
def sizePropsOA : List (String × OASchema) → Nat
  | [] => 0
  | (_, v) :: rest => OASchema.size v + sizePropsOA rest + 1

/-- Size of an optional schema tree. -/
def sizeOptOA : Option OASchema → Nat
  | none => 0
  | some s => OASchema.size s + 1

/-- Size of a list of schema trees. -/
def sizeListOA : List OASchema → Nat
  | [] => 0
  | x :: xs => OASchema.size x + sizeListOA xs + 1

end

/-- The termination measure of collectOpenAPIObject: reference steps strictly
shrink the unvisited-component count, structural steps strictly shrink the
schema term. -/
def collectMeasure (spec : OASpec) (st : CollectSt) (s : OASchema) : Nat :=
  unvisitedCount spec st * (sizePropsOA spec.schemas + 1) + OASchema.size s

/-- collectOpenAPIObject from the source as a total function: run the
fuelled recursion with the sufficient fuel bound (the termination theorem
below shows the default arm is never taken). -/
def collectOpenAPIObject (spec : OASpec) (s : OASchema) (st : CollectSt) : CollectSt :=
  (collectFuel spec (collectMeasure spec st s + 1) s st).getD st

/-- openAPITypeName from the source: references name their target, arrays
recurse into the item schema (a nil item behaves like Go's nil receiver,
yielding "Unknown"), primitives map to coarse labels keyed off the size
format hint, untyped composition resolves to "object", and everything else
is "Unknown". -/
def openAPITypeName (spec : OASpec) : OASchema → String × Bool × String
  | OASchema.mk core _ items al _ _ =>
    if !(core.ref = "" : Bool) then
      let rn := openAPIRefName core.ref
      if rn = "" then ("Unknown", false, "") else (rn, false, rn)
    else if core.ty = "array" then
      match items with
      | some it =>
        let r := openAPITypeName spec it
        ("[]" ++ r.1, true, r.2.2)
      | none => ("[]" ++ "Unknown", true, "")
    else if core.ty = "object" then ("object", false, "")
    else if core.ty = "string" then ("string", false, "")
    else if core.ty = "integer" then
      if core.format = "int64" then ("int64", false, "") else ("int", false, "")
    else if core.ty = "number" then
      if core.format = "float" then ("float32", false, "") else ("float64", false, "")
    else if core.ty = "boolean" then ("bool", false, "")
    else if al.length > 0 then ("object", false, "")
    else ("Unknown", false, "")

/-- The all-default FieldConstraints value (Go's `&FieldConstraints{}`). -/
def emptyFC : FieldConstraints :=
  { Required := false, Nullable := false, MinLength := none, MaxLength := none,
    Minimum := none, Maximum := none, Pattern := "", Format := "", Enum := [] }

/-- openAPIConstraintsForSchema from the source: copy the validation
keywords field for field and collapse an all-default result to absent. -/
def openAPIConstraintsForSchema (s : OASchema) : Option FieldConstraints :=
  let c : FieldConstraints :=
    { Required := false
      Nullable := s.core.nullable
      MinLength := s.core.minLength
      MaxLength := s.core.maxLength
      Minimum := s.core.minimum
      Maximum := s.core.maximum
      Pattern := s.core.pattern
      Format := s.core.format
      Enum := s.core.enumVals }
  if constraintsEmpty c then none else some c

/-- openAPISchemaToTableMetadata from the source: resolve the schema's
property map, then emit one column per property in sorted key order,
forcing the Required flag for names in the required set. -/
def openAPISchemaToTableMetadata (spec : OASpec) (schemaName : String) (schema : OASchema) :
    TableMetadata :=
  let st := collectOpenAPIObject spec schema { visited := [], props := [], required := [] }
  let keys := (st.props.map Prod.fst).insertionSort (fun a b => strLeB a b = true)
  let cols := keys.foldl
    (fun acc propName =>
      match lookupA st.props propName with
      | none => acc
      | some ps =>
        let tn := openAPITypeName spec ps
        let c0 := openAPIConstraintsForSchema ps
        let c := if propName ∈ st.required then some { c0.getD emptyFC with Required := true }
          else c0
        acc ++ [{ Name := propName, JSONName := propName, Typ := tn.1,
                  Validation := "", Description := ps.core.description, Additional := "",
                  Constraints := c, Ref := tn.2.2, IsArray := tn.2.1,
                  Source := "openapi" }])
    []
  { StructName := schemaName
    NormalizedName := normalizeEntityName schemaName
    Source := "openapi"
    Columns := cols
    Relations := []
    Operations := [] }

/-- pickJSONMediaSchema from the source: application/json first, then
application/ld+json, then the lexicographically first media type. -/
def pickJSONMediaSchema (content : List (String × OAMediaType)) : Option OASchema :=
  if content.isEmpty then none
  else
    match lookupA content "application/json" with
    | some mt => mt.schema
    | none =>
      match lookupA content "application/ld+json" with
      | some mt => mt.schema
      | none =>
        match (content.map Prod.fst).insertionSort (fun a b => strLeB a b = true) with
        | [] => none
        | k :: _ =>
          match lookupA content k with
          | some mt => mt.schema
          | none => none

/-- openAPISchemaRefOrItemRef from the source. -/
def openAPISchemaRefOrItemRef : Option OASchema → String
  | none => ""
  | some s =>
    if !(s.ref = "" : Bool) then openAPIRefName s.ref
    else if s.ty = "array" then
      match s.items with
      | some it => if !(it.ref = "" : Bool) then openAPIRefName it.ref else ""
      | none => ""
    else ""

/-- pickOpenAPISchemaRefName from the source (request bodies). -/
def pickOpenAPISchemaRefName : Option OARequestBody → String
  | none => ""
  | some rb =>
    if rb.content.isEmpty then ""
    else openAPISchemaRefOrItemRef (pickJSONMediaSchema rb.content)

/-- pickOpenAPIResponseSchemaRefName from the source: status codes 200,
201, 202, 204 in order, then "default", then the lexicographically first
code. -/
def pickOpenAPIResponseSchemaRefName (resps : List (String × OAResponse)) : String :=
  if resps.isEmpty then ""
  else
    match lookupA resps "200" with
    | some r => openAPISchemaRefOrItemRef (pickJSONMediaSchema r.content)
    | none =>
      match lookupA resps "201" with
      | some r => openAPISchemaRefOrItemRef (pickJSONMediaSchema r.content)
      | none =>
        match lookupA resps "202" with
        | some r => openAPISchemaRefOrItemRef (pickJSONMediaSchema r.content)
        | none =>
          match lookupA resps "204" with
          | some r => openAPISchemaRefOrItemRef (pickJSONMediaSchema r.content)
          | none =>
            match lookupA resps "default" with
            | some r => openAPISchemaRefOrItemRef (pickJSONMediaSchema r.content)
            | none =>
              match (resps.map Prod.fst).insertionSort (fun a b => strLeB a b = true) with
              | [] => ""
              | c :: _ =>
                match lookupA resps c with
                | some r => openAPISchemaRefOrItemRef (pickJSONMediaSchema r.content)
                | none => ""

/-- openAPIOperationInfo from the source. -/
def openAPIOperationInfo (p method : String) (op : OAOperation) : OperationInfo :=
  { Method := method
    Path := p
    OperationID := op.operationId
    Summary := op.summary
    Tags := op.tags
    RequestSchema := pickOpenAPISchemaRefName op.requestBody
    ResponseSchema := pickOpenAPIResponseSchemaRefName op.responses
    Source := "openapi" }

/-- entityFromPathHeuristic from the source: last meaningful path segment,
with a leading api/version segment dropped, a trailing parameter segment
skipped, a plural "s" trimmed, and the first letter capitalized. -/
def entityFromPathHeuristic (p : String) : String :=
  let trimmed := trimCh p '/'
  if trimmed = "" then ""
  else
    let parts := splitOnCh trimmed '/'
    let parts :=
      match parts with
      | p0 :: rest => if p0 = "api" ∨ isPre "v".data p0.data then rest else parts
      | [] => parts
    match parts with
    | [] => ""
    | _ :: _ =>
      let last := parts.getLastD ""
      let last :=
        if isPre "\x7b".data last.data ∧ parts.length > 1 then parts.getD (parts.length - 2) ""
        else last
      let last := trimSuf (trimSpace last) "s"
      if last = "" then "" else capFirst last

/-- inferEntityNameForOperation from the source: request schema, then
response schema, then the first non-empty declared tag, then the path
heuristic. -/
def inferEntityNameForOperation (oi : OperationInfo) : String :=
  if !(oi.RequestSchema = "" : Bool) then oi.RequestSchema
  else if !(oi.ResponseSchema = "" : Bool) then oi.ResponseSchema
  else
    match oi.Tags with
    | t :: _ => if !(t = "" : Bool) then t else entityFromPathHeuristic oi.Path
    | [] => entityFromPathHeuristic oi.Path

/-- Go's `opsByNorm[norm] = append(opsByNorm[norm], oi)`. -/
def appendOpAt (m : List (String × List OperationInfo)) (k : String) (oi : OperationInfo) :
    List (String × List OperationInfo) :=
  match lookupA m k with
  | some ops => updateAssoc m k (ops ++ [oi])
  | none => m ++ [(k, [oi])]

/-- The post-parse pipeline of parseOpenAPIFile (everything after the JSON
decode): component schemas become TableMetadata records inserted through
putSchema, operations are grouped by their normalized inferred entity
name, and each record receives the operation group matching its own
normalized name. -/
def parseOpenAPIModel (spec : OASpec) : SchemaMap :=
  let out := spec.schemas.foldl
    (fun m q => putSchema m (openAPISchemaToTableMetadata spec q.1 q.2)) []
  let opsByNorm := spec.paths.foldl
    (fun m pm =>
      pm.2.foldl
        (fun m mo =>
          let oi := openAPIOperationInfo pm.1 (strToUpper mo.1) mo.2
          let norm := normalizeEntityName (inferEntityNameForOperation oi)
          if norm = "" then m else appendOpAt m norm oi)
        m)
    ([] : List (String × List OperationInfo))
  out.map (fun q =>
    match lookupA opsByNorm q.2.NormalizedName with
    | some ops => (q.1, { q.2 with Operations := q.2.Operations ++ ops })
    | none => q)

/-! Concrete fixtures used by the counterexamples and witnesses below. -/

/-- A relation on field f targeting key a. -/
def cexRelA : RelationNode :=
  { FieldName := "f", TargetStruct := "T", IsCollection := false,
    TargetKey := "a", SourceKey := "id", Validation := "", Description := "" }

/-- A relation on field g targeting key b. -/
def cexRelB : RelationNode :=
  { FieldName := "g", TargetStruct := "T", IsCollection := false,
    TargetKey := "b", SourceKey := "id", Validation := "", Description := "" }

/-- A source record named A of normalized name X carrying one relation. -/
def cexTableA : TableMetadata :=
  { StructName := "A", NormalizedName := "X", Source := "go",
    Columns := [], Relations := [cexRelA], Operations := [] }

/-- A second source record of the same normalized name X carrying another
relation. -/
def cexTableB : TableMetadata :=
  { StructName := "B", NormalizedName := "X", Source := "go",
    Columns := [], Relations := [cexRelB], Operations := [] }

/-- A record of a distinct normalized name Y. -/
def cexTableC : TableMetadata :=
  { StructName := "C", NormalizedName := "Y", Source := "go",
    Columns := [], Relations := [], Operations := [] }

/-- An all-default schema-core value, the base of the schema fixtures. -/
def oaCore0 : OASchemaCore :=
  { ref := "", ty := "", format := "", description := "", pattern := "",
    nullable := false, required := [], enumVals := [],
    minLength := none, maxLength := none, minimum := none, maximum := none }

/-- A plain string schema node. -/
def oaStr : OASchema := .mk { oaCore0 with ty := "string" } [] none [] [] []

/-- A component schema User with one required string property name. -/
def oaUserSchema : OASchema :=
  .mk { oaCore0 with ty := "object", required := ["name"] } [("name", oaStr)] none [] [] []

/-- A pure reference node to the named component. -/
def oaRefTo (n : String) : OASchema :=
  .mk { oaCore0 with ref := "#/components/schemas/" ++ n } [] none [] [] []

/-- An operation whose JSON request body references the named schema. -/
def oaOpWithReq (n : String) : OAOperation :=
  { operationId := "", summary := "", tags := [],
    requestBody := some { content := [("application/json", { schema := some (oaRefTo n) })] },
    responses := [] }

/-- The claim C3 scenario document: component schema User, and POST /users
whose request schema resolves to CreateUserReq. -/
def specCreateUserReq : OASpec :=
  { paths := [("/users", [("post", oaOpWithReq "CreateUserReq")])],
    schemas := [("User", oaUserSchema)] }

/-- The corrected C3 scenario document: the request schema follows the
GoFrame naming convention UserCreateReq. -/
def specUserCreateReq : OASpec :=
  { paths := [("/users", [("post", oaOpWithReq "UserCreateReq")])],
    schemas := [("User", oaUserSchema)] }

/-- A media type carrying an integer schema. -/
def oaMTInt : OAMediaType := { schema := some (.mk { oaCore0 with ty := "integer" } [] none [] [] []) }

/-- A media type carrying a string schema. -/
def oaMTStr : OAMediaType := { schema := some oaStr }

/-- A content map with no application/json entry, whose lexicographically
first key is aaa/bbb but which carries an application/ld+json entry. -/
def cexContent : List (String × OAMediaType) :=
  [("aaa/bbb", oaMTInt), ("application/ld+json", oaMTStr)]

/-- Constraint fixture with a minimum-length bound of 3 and a
maximum-length bound of 10. -/
def fcMin3Max10 : FieldConstraints :=
  { emptyFC with MinLength := some 3, MaxLength := some 10 }

/-- Constraint fixture with a minimum-length bound of 5 and a
maximum-length bound of 7. -/
def fcMin5Max7 : FieldConstraints :=
  { emptyFC with MinLength := some 5, MaxLength := some 7 }

/-! Theorems. Helper lemmas come first, then one theorem per claim with its
witness or counterexample. -/

theorem pickIntPtrMax_eq_omaxN (a b : Option Int) : pickIntPtrMax a b = omaxN a b := by
  rcases a with _ | x <;> rcases b with _ | y <;> simp [pickIntPtrMax, omaxN]
  split_ifs with h
  · simp [max_eq_right h.le]
  · simp [max_eq_left (le_of_not_lt h)]

theorem pickIntPtrMin_eq_ominN (a b : Option Int) : pickIntPtrMin a b = ominN a b := by
  rcases a with _ | x <;> rcases b with _ | y <;> simp [pickIntPtrMin, ominN]
  split_ifs with h
  · simp [min_eq_right h.le]
  · simp [min_eq_left (le_of_not_lt h)]

theorem pickFloatPtrMax_eq_omaxQ (a b : Option Rat) : pickFloatPtrMax a b = omaxQ a b := by
  rcases a with _ | x <;> rcases b with _ | y <;> simp [pickFloatPtrMax, omaxQ]
  split_ifs with h
  · simp [max_eq_right h.le]
  · simp [max_eq_left (le_of_not_lt h)]

theorem pickFloatPtrMin_eq_ominQ (a b : Option Rat) : pickFloatPtrMin a b = ominQ a b := by
  rcases a with _ | x <;> rcases b with _ | y <;> simp [pickFloatPtrMin, ominQ]
  split_ifs with h
  · simp [min_eq_right h.le]
  · simp [min_eq_left (le_of_not_lt h)]

theorem omaxN_comm (a b : Option Int) : omaxN a b = omaxN b a := by
  rcases a with _ | x <;> rcases b with _ | y <;> simp [omaxN, max_comm]

theorem ominN_comm (a b : Option Int) : ominN a b = ominN b a := by
  rcases a with _ | x <;> rcases b with _ | y <;> simp [ominN, min_comm]

theorem omaxQ_comm (a b : Option Rat) : omaxQ a b = omaxQ b a := by
  rcases a with _ | x <;> rcases b with _ | y <;> simp [omaxQ, max_comm]

theorem ominQ_comm (a b : Option Rat) : ominQ a b = ominQ b a := by
  rcases a with _ | x <;> rcases b with _ | y <;> simp [ominQ, min_comm]

theorem constraintsEmpty_eq_true_iff (c : FieldConstraints) :
    constraintsEmpty c = true ↔
      (c.Required = false ∧ c.Nullable = false ∧ c.MinLength = none ∧ c.MaxLength = none
        ∧ c.Minimum = none ∧ c.Maximum = none ∧ c.Pattern = "" ∧ c.Format = "" ∧ c.Enum = []) := by
  constructor
  · intro h
    unfold constraintsEmpty at h
    split_ifs at h with h1 h2 h3 h4
    simp only [Bool.or_eq_true, not_or, Bool.not_eq_true] at h1
    simp only [Bool.or_eq_true, not_or, Option.not_isSome_iff_eq_none] at h2
    simp only [Bool.or_eq_true, not_or, Bool.not_eq_true', decide_eq_false_iff_not, not_not] at h3
    have h4' : c.Enum = [] := by
      rcases he : c.Enum with _ | ⟨e, es⟩
      · rfl
      · exfalso; apply h4; rw [he]; simp
    exact ⟨h1.1, h1.2, h2.1.1.1, h2.1.1.2, h2.1.2, h2.2, h3.1, h3.2, h4'⟩
  · rintro ⟨hr, hnl, hminL, hmaxL, hmi, hma, hpat, hfmt, hen⟩
    unfold constraintsEmpty
    simp [hr, hnl, hminL, hmaxL, hmi, hma, hpat, hfmt, hen]

theorem mergeConstraintsCore_empty_comm (a b : FieldConstraints) :
    constraintsEmpty (mergeConstraintsCore a b) = constraintsEmpty (mergeConstraintsCore b a) := by
  rcases hab : constraintsEmpty (mergeConstraintsCore a b) with _ | _ <;>
  rcases hba : constraintsEmpty (mergeConstraintsCore b a) with _ | _ <;> try rfl
  · exfalso
    rw [constraintsEmpty_eq_true_iff] at hba
    obtain ⟨q1, q2, q3, q4, q5, q6, q7, q8, q9⟩ := hba
    rw [Bool.eq_false_iff, Ne, constraintsEmpty_eq_true_iff] at hab
    apply hab
    simp only [mergeConstraintsCore, pickIntPtrMax_eq_omaxN, pickIntPtrMin_eq_ominN,
      pickFloatPtrMax_eq_omaxQ, pickFloatPtrMin_eq_ominQ] at q1 q2 q3 q4 q5 q6 q7 q8 q9 ⊢
    rw [omaxN_comm, ominN_comm, omaxQ_comm, ominQ_comm]
    refine ⟨by rw [Bool.or_comm]; exact q1, by rw [Bool.or_comm]; exact q2, q3, q4, q5, q6, ?_, ?_, ?_⟩
    · by_cases hp : b.Pattern = "" <;> by_cases hq : a.Pattern = "" <;> simp_all
    · by_cases hp : b.Format = "" <;> by_cases hq : a.Format = "" <;> simp_all
    · by_cases hp : b.Enum = [] <;> by_cases hq : a.Enum = [] <;> simp_all
  · exfalso
    rw [constraintsEmpty_eq_true_iff] at hab
    obtain ⟨q1, q2, q3, q4, q5, q6, q7, q8, q9⟩ := hab
    rw [Bool.eq_false_iff, Ne, constraintsEmpty_eq_true_iff] at hba
    apply hba
    simp only [mergeConstraintsCore, pickIntPtrMax_eq_omaxN, pickIntPtrMin_eq_ominN,
      pickFloatPtrMax_eq_omaxQ, pickFloatPtrMin_eq_ominQ] at q1 q2 q3 q4 q5 q6 q7 q8 q9 ⊢
    rw [omaxN_comm, ominN_comm, omaxQ_comm, ominQ_comm]
    refine ⟨by rw [Bool.or_comm]; exact q1, by rw [Bool.or_comm]; exact q2, q3, q4, q5, q6, ?_, ?_, ?_⟩
    · by_cases hp : a.Pattern = "" <;> by_cases hq : b.Pattern = "" <;> simp_all
    · by_cases hp : a.Format = "" <;> by_cases hq : b.Format = "" <;> simp_all
    · by_cases hp : a.Enum = [] <;> by_cases hq : b.Enum = [] <;> simp_all

/-- C4 (confirmed): for every pair of non-nil constraint sets, the merge
keeps the larger of the two minimum-length and minimum-value bounds and
the smaller of the two maximum-length and maximum-value bounds, treating
an absent bound as no constraint; those merged bounds are independent of
the argument order (also through the collapse check); and a merged result
in which every field is default collapses to absent rather than to an
empty constraint object. -/
theorem mergeConstraints_narrowing (a b : FieldConstraints) :
    (mergeConstraintsCore a b).MinLength = omaxN a.MinLength b.MinLength
    ∧ (mergeConstraintsCore a b).Minimum = omaxQ a.Minimum b.Minimum
    ∧ (mergeConstraintsCore a b).MaxLength = ominN a.MaxLength b.MaxLength
    ∧ (mergeConstraintsCore a b).Maximum = ominQ a.Maximum b.Maximum
    ∧ (mergeConstraintsCore a b).MinLength = (mergeConstraintsCore b a).MinLength
    ∧ (mergeConstraintsCore a b).Minimum = (mergeConstraintsCore b a).Minimum
    ∧ (mergeConstraintsCore a b).MaxLength = (mergeConstraintsCore b a).MaxLength
    ∧ (mergeConstraintsCore a b).Maximum = (mergeConstraintsCore b a).Maximum
    ∧ (mergeConstraints (some a) (some b) = none ↔ mergeConstraints (some b) (some a) = none)
    ∧ (constraintsEmpty (mergeConstraintsCore a b) = true → mergeConstraints (some a) (some b) = none) := by
  refine ⟨?_, ?_, ?_, ?_, ?_, ?_, ?_, ?_, ?_, ?_⟩
  · simp [mergeConstraintsCore, pickIntPtrMax_eq_omaxN]
  · simp [mergeConstraintsCore, pickFloatPtrMax_eq_omaxQ]
  · simp [mergeConstraintsCore, pickIntPtrMin_eq_ominN]
  · simp [mergeConstraintsCore, pickFloatPtrMin_eq_ominQ]
  · simp [mergeConstraintsCore, pickIntPtrMax_eq_omaxN, omaxN_comm]
  · simp [mergeConstraintsCore, pickFloatPtrMax_eq_omaxQ, omaxQ_comm]
  · simp [mergeConstraintsCore, pickIntPtrMin_eq_ominN, ominN_comm]
  · simp [mergeConstraintsCore, pickFloatPtrMin_eq_ominQ, ominQ_comm]
  · simp only [mergeConstraints]
    rw [mergeConstraintsCore_empty_comm]
    split_ifs <;> simp
  · intro h
    simp [mergeConstraints, h]

/-- C4 witness: merging a minimum-length of 3 with a minimum-length of 5
keeps 5, and merging a maximum-length of 10 with 7 keeps 7, in both
argument orders. -/
theorem mergeConstraints_narrowing_witness :
    (mergeConstraintsCore fcMin3Max10 fcMin5Max7).MinLength = some 5
    ∧ (mergeConstraintsCore fcMin3Max10 fcMin5Max7).MaxLength = some 7
    ∧ (mergeConstraintsCore fcMin3Max10 fcMin5Max7).MinLength
        = (mergeConstraintsCore fcMin5Max7 fcMin3Max10).MinLength := by
  obtain ⟨h1, _, h3, _, h5, _, _, _, _, _⟩ := mergeConstraints_narrowing fcMin3Max10 fcMin5Max7
  refine ⟨?_, ?_, h5⟩
  · rw [h1]; decide
  · rw [h3]; decide

/-- C2 counterexample: on the empty input the normalizer returns the empty
string, refuting the claim that every input, the empty string included,
yields a non-empty entity key. -/
theorem normalizeEntityName_empty_counterexample : normalizeEntityName "" = "" := rfl

/-- C2 (amended): normalizeEntityName is total and deterministic, returns
a non-empty string for every non-empty input, and returns the original raw
name unchanged whenever stripping removed the entire string; on the empty
input it returns the empty string. -/
theorem normalizeEntityName_nonempty_total (s : String) (h : s ≠ "") :
    normalizeEntityName s ≠ "" ∧ (strippedEntityName s = "" → normalizeEntityName s = s) := by
  by_cases hs : strippedEntityName s = "" <;> simp [normalizeEntityName, hs, h]

/-- C2 witness at the concrete input User. -/
theorem normalizeEntityName_nonempty_total_witness :
    normalizeEntityName "User" ≠ ""
    ∧ (strippedEntityName "User" = "" → normalizeEntityName "User" = "User") :=
  normalizeEntityName_nonempty_total "User" (by decide)

/-- C6 counterexample: the orm tag consisting of a with: sub-tag with an
empty value does contain a with: sub-tag, yet parseWithTag yields no
RelationNode at all, refuting the claim for that input. -/
theorem parseWithTag_empty_value_counterexample :
    hasWithSubtag "with:" = true ∧ parseWithTag "with:" = none := by decide

/-- C6 (amended): for every orm tag whose with: sub-tag carries a
non-empty value, parseWithTag splits that value on the first equals sign
with surrounding whitespace trimmed, the left side becoming TargetKey and
the right side SourceKey, which defaults to id when no equals sign is
present; in particular the values uid=id and uid = id (whitespace around
the equals sign) produce identical RelationNode fields. -/
theorem parseWithTag_splits_value :
    (∀ tag : String, extractWithValue tag ≠ "" →
      parseWithTag tag = some
        { FieldName := "", TargetStruct := "", IsCollection := false,
          TargetKey := trimSpace (String.mk (splitFirstCh '=' (extractWithValue tag).data).1),
          SourceKey :=
            match (splitFirstCh '=' (extractWithValue tag).data).2 with
            | some rest => trimSpace (String.mk rest)
            | none => "id",
          Validation := "", Description := "" })
    ∧ parseWithTag "with:uid=id" =
        some { FieldName := "", TargetStruct := "", IsCollection := false,
               TargetKey := "uid", SourceKey := "id", Validation := "", Description := "" }
    ∧ parseWithTag "with:uid = id" = parseWithTag "with:uid=id" := by
  refine ⟨fun tag h => ?_, by decide, by decide⟩
  simp [parseWithTag, h]

/-- C6 witness: a multi-segment orm tag whose with: value has no equals
sign defaults the source key to id. -/
theorem parseWithTag_splits_value_witness :
    parseWithTag "foo, with:uid" = some
      { FieldName := "", TargetStruct := "", IsCollection := false,
        TargetKey := "uid", SourceKey := "id", Validation := "", Description := "" } := by
  have h := parseWithTag_splits_value.1 "foo, with:uid" (by decide)
  rw [h]; decide

theorem columnKey_mergeColumn (a b : ColumnInfo) (h : columnKey a = columnKey b) :
    columnKey (mergeColumn a b) = columnKey a := by
  by_cases hj : a.JSONName = ""
  · by_cases hbj : b.JSONName = ""
    · by_cases hn : a.Name = ""
      · simp_all [columnKey, mergeColumn]
      · simp_all [columnKey, mergeColumn]
    · simp_all [columnKey, mergeColumn]
  · simp_all [columnKey, mergeColumn]

theorem getD_map {α β : Type} (f : α → β) (d : α) :
    ∀ (l : List α) (i : Nat), (l.map f).getD i (f d) = f (l.getD i d)
  | [], _ => rfl
  | _ :: _, 0 => rfl
  | _ :: as, i + 1 => getD_map f d as i

theorem set_getD_self {α : Type} :
    ∀ (l : List α) (i : Nat) (d : α), l.set i (l.getD i d) = l
  | [], _, _ => rfl
  | _ :: _, 0, _ => rfl
  | a :: as, i + 1, d => congrArg (a :: ·) (set_getD_self as i d)

theorem map_set_keyEq {α β : Type} (f : α → β) (l : List α) (i : Nat) (x d : α)
    (hx : f x = f (l.getD i d)) : (l.set i x).map f = l.map f := by
  rw [List.map_set, hx, ← getD_map f d l i, set_getD_self]

theorem findLastIdx_some (d : ColumnInfo) (k : String) :
    ∀ (cols : List ColumnInfo) (i : Nat), findLastIdx cols k = some i →
      i < cols.length ∧ columnKey (cols.getD i d) = k := by
  intro cols
  induction cols with
  | nil => intro i h; simp [findLastIdx] at h
  | cons c cs ih =>
    intro i h
    simp only [findLastIdx] at h
    cases hf : findLastIdx cs k with
    | some j =>
      rw [hf] at h
      obtain ⟨hl, hk⟩ := ih j hf
      obtain rfl : j + 1 = i := by simpa using h
      exact ⟨by simpa using Nat.succ_lt_succ hl, by simpa using hk⟩
    | none =>
      rw [hf] at h
      split_ifs at h with hc
      obtain rfl : (0 : Nat) = i := by simpa using h
      exact ⟨by simp, by simpa using hc⟩

theorem findLastIdx_none_iff (k : String) :
    ∀ cols : List ColumnInfo, findLastIdx cols k = none ↔ k ∉ cols.map columnKey := by
  intro cols
  induction cols with
  | nil => simp [findLastIdx]
  | cons c cs ih =>
    simp only [findLastIdx]
    cases hf : findLastIdx cs k with
    | some j =>
      have hmem : k ∈ List.map columnKey cs := by
        by_contra hmem
        rw [← ih] at hmem
        rw [hf] at hmem
        exact Option.noConfusion hmem
      simp [List.mem_cons, hmem]
    | none =>
      have hnot : ¬ k ∈ List.map columnKey cs := ih.mp hf
      split_ifs with hc
      · simp [hc]
      · simp only [List.map_cons, List.mem_cons, true_iff]
        intro h0
        rcases h0 with h0 | h0
        · exact hc h0.symm
        · exact hnot h0

theorem mergeColumnStep_key_empty (cols : List ColumnInfo) (c : ColumnInfo)
    (h : columnKey c = "") : mergeColumnStep cols c = cols := by
  simp [mergeColumnStep, h]

theorem mergeColumnStep_found (cols : List ColumnInfo) (c : ColumnInfo) (i : Nat)
    (h : ¬ columnKey c = "") (hf : findLastIdx cols (columnKey c) = some i) :
    mergeColumnStep cols c = cols.set i (mergeColumn (cols.getD i c) c) := by
  simp [mergeColumnStep, h, hf]

theorem mergeColumns_map_key (src : List ColumnInfo) :
    ∀ cols : List ColumnInfo,
      (∀ c ∈ src, columnKey c = "" ∨ columnKey c ∈ cols.map columnKey) →
      (mergeColumns cols src).map columnKey = cols.map columnKey := by
  induction src with
  | nil => intro cols _; rfl
  | cons c cs ih =>
    intro cols hinv
    have hunf : mergeColumns cols (c :: cs) = mergeColumns (mergeColumnStep cols c) cs := rfl
    by_cases hk0 : columnKey c = ""
    · rw [hunf, mergeColumnStep_key_empty cols c hk0]
      exact ih cols (fun x hx => hinv x (List.mem_cons_of_mem c hx))
    · rcases hinv c (List.mem_cons_self c cs) with hk | hk
      · exact absurd hk hk0
      · cases hf : findLastIdx cols (columnKey c) with
        | none => exact absurd hk ((findLastIdx_none_iff _ _).mp hf)
        | some i =>
          obtain ⟨hlen, hkey⟩ := findLastIdx_some c (columnKey c) cols i hf
          have hmap : (cols.set i (mergeColumn (cols.getD i c) c)).map columnKey
              = cols.map columnKey :=
            map_set_keyEq columnKey cols i _ c (columnKey_mergeColumn _ _ hkey)
          rw [hunf, mergeColumnStep_found cols c i hk0 hf, ih _ ?_, hmap]
          intro x hx
          rcases hinv x (List.mem_cons_of_mem c hx) with h | h
          · exact Or.inl h
          · exact Or.inr (by rw [hmap]; exact h)

theorem mergeRelations_self_eq (src : List RelationNode) :
    ∀ acc : List RelationNode,
      (∀ r ∈ src, relationKey r ∈ acc.map relationKey) → mergeRelations acc src = acc := by
  induction src with
  | nil => intro acc _; rfl
  | cons r rs ih =>
    intro acc hinv
    have hmem := hinv r (List.mem_cons_self r rs)
    have hstep : mergeRelationStep acc r = acc := by
      simp only [mergeRelationStep]
      split_ifs <;> rfl
    have hunf : mergeRelations acc (r :: rs) = mergeRelations (mergeRelationStep acc r) rs := rfl
    rw [hunf, hstep]
    exact ih acc (fun x hx => hinv x (List.mem_cons_of_mem r hx))

theorem mergeOperations_self_eq (src : List OperationInfo) :
    ∀ acc : List OperationInfo,
      (∀ op ∈ src, operationKey op ∈ acc.map operationKey) → mergeOperations acc src = acc := by
  induction src with
  | nil => intro acc _; rfl
  | cons op ops ih =>
    intro acc hinv
    have hmem := hinv op (List.mem_cons_self op ops)
    have hstep : mergeOperationStep acc op = acc := by
      simp only [mergeOperationStep]
      split_ifs <;> rfl
    have hunf : mergeOperations acc (op :: ops)
        = mergeOperations (mergeOperationStep acc op) ops := rfl
    rw [hunf, hstep]
    exact ih acc (fun x hx => hinv x (List.mem_cons_of_mem op hx))

theorem mergeTableMetadata_collections (dst src : TableMetadata) :
    (mergeTableMetadata dst src).Columns = mergeColumns dst.Columns src.Columns
    ∧ (mergeTableMetadata dst src).Relations = mergeRelations dst.Relations src.Relations
    ∧ (mergeTableMetadata dst src).Operations = mergeOperations dst.Operations src.Operations := by
  simp only [mergeTableMetadata]
  split_ifs <;> simp

/-- C5 (confirmed): merging a TableMetadata into a clone of itself changes
no column identity key (hence the number of distinct column keys), adds no
column, and leaves the relation and operation lists exactly as they were,
so nothing is duplicated. -/
theorem mergeTableMetadata_self_no_duplication (A : TableMetadata) :
    (mergeTableMetadata (cloneTableMetadata A) A).Columns.map columnKey
        = A.Columns.map columnKey
    ∧ (mergeTableMetadata (cloneTableMetadata A) A).Columns.length = A.Columns.length
    ∧ (mergeTableMetadata (cloneTableMetadata A) A).Relations = A.Relations
    ∧ (mergeTableMetadata (cloneTableMetadata A) A).Operations = A.Operations := by
  have hclone : cloneTableMetadata A = A := rfl
  rw [hclone]
  obtain ⟨hc, hr, ho⟩ := mergeTableMetadata_collections A A
  have hcols : (mergeTableMetadata A A).Columns.map columnKey
      = A.Columns.map columnKey := by
    rw [hc]
    exact mergeColumns_map_key _ _ (fun c hcm => Or.inr (List.mem_map_of_mem columnKey hcm))
  refine ⟨hcols, ?_, ?_, ?_⟩
  · have := congrArg List.length hcols
    simpa using this
  · rw [hr]
    exact mergeRelations_self_eq _ _ (fun r hrm => List.mem_map_of_mem relationKey hrm)
  · rw [ho]
    exact mergeOperations_self_eq _ _ (fun op hom => List.mem_map_of_mem operationKey hom)

theorem digitChar_inj10 : ∀ a < 10, ∀ b < 10, Nat.digitChar a = Nat.digitChar b → a = b := by
  decide

theorem decDigits_eq (n : Nat) :
    decDigits n
      = if n < 10 then [Nat.digitChar n]
        else decDigits (n / 10) ++ [Nat.digitChar (n % 10)] := by
  rw [decDigits]

theorem decDigits_ne_nil (n : Nat) : decDigits n ≠ [] := by
  rw [decDigits_eq]
  split_ifs with h <;> simp

theorem toDigitsCore_eq_decDigits :
    ∀ (fuel n : Nat) (ds : List Char), n < fuel →
      Nat.toDigitsCore 10 fuel n ds = decDigits n ++ ds := by
  intro fuel
  induction fuel with
  | zero => intro n ds h; omega
  | succ f ih =>
    intro n ds h
    simp only [Nat.toDigitsCore]
    by_cases h0 : n / 10 = 0
    · have hn : n < 10 := (Nat.div_eq_zero_iff (by omega)).mp h0
      rw [if_pos h0, decDigits_eq n, if_pos hn, Nat.mod_eq_of_lt hn]
      simp
    · have hlt : n / 10 < f := by
        have h1 : n / 10 < n := Nat.div_lt_self (by omega) (by omega)
        omega
      have h10 : ¬ n < 10 := fun hlt10 => h0 (Nat.div_eq_of_lt hlt10)
      rw [if_neg h0, ih (n / 10) (Nat.digitChar (n % 10) :: ds) hlt, decDigits_eq n, if_neg h10]
      simp

theorem decDigits_inj : ∀ m n : Nat, decDigits m = decDigits n → m = n := by
  intro m
  induction m using Nat.strong_induction_on with
  | _ m ih =>
    intro n h
    by_cases hm : m < 10 <;> by_cases hn : n < 10
    · rw [decDigits_eq m, if_pos hm, decDigits_eq n, if_pos hn] at h
      injection h with h1 _
      exact digitChar_inj10 m hm n hn h1
    · exfalso
      rw [decDigits_eq m, if_pos hm, decDigits_eq n, if_neg hn] at h
      have hne := decDigits_ne_nil (n / 10)
      rcases hx : decDigits (n / 10) with _ | ⟨d, ds'⟩
      · exact hne hx
      · rw [hx] at h
        have hlen := congrArg List.length h
        simp [List.length_append] at hlen
    · exfalso
      rw [decDigits_eq m, if_neg hm, decDigits_eq n, if_pos hn] at h
      have hne := decDigits_ne_nil (m / 10)
      rcases hx : decDigits (m / 10) with _ | ⟨d, ds'⟩
      · exact hne hx
      · rw [hx] at h
        have hlen := congrArg List.length h
        simp [List.length_append] at hlen
    · rw [decDigits_eq m, if_neg hm, decDigits_eq n, if_neg hn] at h
      obtain ⟨h1, h2⟩ := List.append_inj' h (by simp)
      have hdiv := ih (m / 10) (Nat.div_lt_self (by omega) (by omega)) (n / 10) h1
      have hmod : m % 10 = n % 10 := by
        injection h2 with h2 _
        exact digitChar_inj10 (m % 10) (Nat.mod_lt m (by omega)) (n % 10)
          (Nat.mod_lt n (by omega)) h2
      omega

theorem natRepr_inj : ∀ m n : Nat, Nat.repr m = Nat.repr n → m = n := by
  intro m n h
  have hd : Nat.toDigits 10 m = Nat.toDigits 10 n := by
    have h2 := congrArg String.data h
    simpa [Nat.repr, List.asString] using h2
  rw [Nat.toDigits, Nat.toDigits,
    toDigitsCore_eq_decDigits (m + 1) m [] (by omega),
    toDigitsCore_eq_decDigits (n + 1) n [] (by omega)] at hd
  simp only [List.append_nil] at hd
  exact decDigits_inj m n hd

theorem natRepr_length_pos (n : Nat) : 0 < (Nat.repr n).length := by
  have h : Nat.repr n = (decDigits n).asString := by
    rw [Nat.repr, Nat.toDigits, toDigitsCore_eq_decDigits (n + 1) n [] (by omega)]
    simp
  rw [h]
  have hne := decDigits_ne_nil n
  rcases hx : decDigits n with _ | ⟨d, ds'⟩
  · exact absurd hx hne
  · simp [List.asString, String.length]

theorem schemaKeyCand_inj (base : String) : Function.Injective (schemaKeyCand base) := by
  intro i j h
  match i, j with
  | 0, 0 => rfl
  | 0, j + 1 =>
    exfalso
    have hlen := congrArg String.length h
    simp only [schemaKeyCand, String.length_append] at hlen
    have := natRepr_length_pos (j + 2)
    have h2 : ("__" : String).length = 2 := rfl
    omega
  | i + 1, 0 =>
    exfalso
    have hlen := congrArg String.length h
    simp only [schemaKeyCand, String.length_append] at hlen
    have := natRepr_length_pos (i + 2)
    have h2 : ("__" : String).length = 2 := rfl
    omega
  | i + 1, j + 1 =>
    simp only [schemaKeyCand] at h
    have hdata := congrArg String.data h
    simp only [String.data_append] at hdata
    have hrep : (Nat.repr (i + 2)).data = (Nat.repr (j + 2)).data :=
      List.append_cancel_left hdata
    have := natRepr_inj (i + 2) (j + 2) (String.ext hrep)
    omega

theorem lookupA_eq_none_iff {α : Type} (k : String) :
    ∀ m : List (String × α), lookupA m k = none ↔ k ∉ m.map Prod.fst := by
  intro m
  induction m with
  | nil => simp [lookupA]
  | cons p rest ih =>
    obtain ⟨k', v⟩ := p
    simp only [lookupA, List.map_cons, List.mem_cons]
    split_ifs with hk
    · subst hk; simp
    · simp only [ih]
      constructor
      · intro hr hor
        rcases hor with hor | hor
        · exact hk hor.symm
        · exact hr hor
      · intro hr hmem
        exact hr (Or.inr hmem)

theorem lookupA_append_of_mem {α : Type} (k : String) (l : List (String × α)) :
    ∀ m : List (String × α), k ∈ m.map Prod.fst → lookupA (m ++ l) k = lookupA m k := by
  intro m
  induction m with
  | nil => simp
  | cons p rest ih =>
    obtain ⟨k', v⟩ := p
    intro hmem
    by_cases hk : k' = k
    · simp only [List.cons_append, lookupA, if_pos hk]
    · simp only [List.cons_append, lookupA, if_neg hk]
      apply ih
      simp only [List.map_cons, List.mem_cons] at hmem
      rcases hmem with h | h
      · exact absurd h.symm hk
      · exact h

theorem lookupA_append_of_none {α : Type} (k : String) (l : List (String × α)) :
    ∀ m : List (String × α), lookupA m k = none → lookupA (m ++ l) k = lookupA l k := by
  intro m
  induction m with
  | nil => simp
  | cons p rest ih =>
    obtain ⟨k', v⟩ := p
    intro hnone
    by_cases hk : k' = k
    · exfalso
      simp [lookupA, hk] at hnone
    · simp only [lookupA, if_neg hk] at hnone
      simp only [List.cons_append, lookupA, if_neg hk]
      exact ih hnone

theorem findFreeKey_spec (m : SchemaMap) (base : String) :
    lookupA m (findFreeKey m base) = none
    ∧ (findFreeKey m base = base
       ∨ ∃ i, 2 ≤ i ∧ findFreeKey m base = base ++ "__" ++ Nat.repr i)
    ∧ (lookupA m base = none → findFreeKey m base = base) := by
  unfold findFreeKey
  cases hfind : ((List.range (m.length + 2)).map (schemaKeyCand base)).find?
      (fun k => (lookupA m k).isNone) with
  | none =>
    exfalso
    have hall := List.find?_eq_none.mp hfind
    have hsub : ∀ k ∈ (List.range (m.length + 2)).map (schemaKeyCand base),
        k ∈ m.map Prod.fst := by
      intro k hk
      have h1 := hall k hk
      by_contra h2
      rw [← lookupA_eq_none_iff] at h2
      simp [h2] at h1
    have hnd : ((List.range (m.length + 2)).map (schemaKeyCand base)).Nodup :=
      List.Nodup.map (schemaKeyCand_inj base) (List.nodup_range _)
    have h1 : ((List.range (m.length + 2)).map (schemaKeyCand base)).toFinset.card
        = m.length + 2 := by
      rw [List.toFinset_card_of_nodup hnd]
      simp
    have h2 : ((List.range (m.length + 2)).map (schemaKeyCand base)).toFinset
        ⊆ (m.map Prod.fst).toFinset := by
      intro x hx
      exact List.mem_toFinset.mpr (hsub x (List.mem_toFinset.mp hx))
    have h3 := Finset.card_le_card h2
    have h4 := List.toFinset_card_le (m.map Prod.fst)
    rw [h1] at h3
    simp only [List.length_map] at h4
    omega
  | some k =>
    have hfree : lookupA m k = none := by
      have := List.find?_some hfind
      simpa using this
    have hmem := List.mem_of_find?_eq_some hfind
    refine ⟨hfree, ?_, ?_⟩
    · obtain ⟨j, _, hj⟩ := List.mem_map.mp hmem
      match j, hj with
      | 0, hj => exact Or.inl hj.symm
      | j + 1, hj => exact Or.inr ⟨j + 2, by omega, hj.symm⟩
    · intro hbase
      have hrange : List.range (m.length + 2) = 0 :: (List.range (m.length + 1)).map Nat.succ :=
        List.range_succ_eq_map (m.length + 1)
      rw [hrange] at hfind
      simp only [List.map_cons, List.find?] at hfind
      rw [show schemaKeyCand base 0 = base from rfl, hbase] at hfind
      simpa using hfind.symm

/-- C9 (confirmed): putSchema never overwrites or drops an entry: every
previously present binding is unchanged, the map grows by exactly one
entry, the inserted record is stored under a key that was free, and that
key is the raw StructName itself or, when that key is taken, the
StructName with an appended numeric suffix of the form base__i with
i at least 2. -/
theorem putSchema_no_overwrite (m : SchemaMap) (t : TableMetadata) :
    (putSchema m t).length = m.length + 1
    ∧ (∀ k, k ∈ m.map Prod.fst → lookupA (putSchema m t) k = lookupA m k)
    ∧ lookupA m (findFreeKey m t.StructName) = none
    ∧ lookupA (putSchema m t) (findFreeKey m t.StructName) = some t
    ∧ (findFreeKey m t.StructName = t.StructName
       ∨ ∃ i, 2 ≤ i ∧ findFreeKey m t.StructName = t.StructName ++ "__" ++ Nat.repr i)
    ∧ (lookupA m t.StructName = none → findFreeKey m t.StructName = t.StructName) := by
  obtain ⟨hfree, hshape, hfirst⟩ := findFreeKey_spec m t.StructName
  refine ⟨by simp [putSchema], ?_, hfree, ?_, hshape, hfirst⟩
  · intro k hk
    exact lookupA_append_of_mem k _ m hk
  · rw [putSchema, lookupA_append_of_none _ _ m hfree]
    simp [lookupA]

/-- C9 witness: inserting a second record under the taken key A keeps the
old binding intact and grows the map by one. -/
theorem putSchema_no_overwrite_witness :
    (putSchema [("A", cexTableA)] { cexTableB with StructName := "A" }).length = 2
    ∧ lookupA (putSchema [("A", cexTableA)] { cexTableB with StructName := "A" }) "A"
        = lookupA [("A", cexTableA)] "A" := by
  obtain ⟨h1, h2, _, _, _, _⟩ :=
    putSchema_no_overwrite [("A", cexTableA)] { cexTableB with StructName := "A" }
  exact ⟨h1, h2 "A" (by decide)⟩

theorem char_toNat_inj {a b : Char} (h : a.toNat = b.toNat) : a = b :=
  Char.ext (UInt32.toNat.inj h)

theorem chLt_asymm {a b : Char} (h : chLt a b = true) : chLt b a = false := by
  simp [chLt] at h ⊢
  omega

theorem chLt_trans {a b c : Char} (h1 : chLt a b = true) (h2 : chLt b c = true) :
    chLt a c = true := by
  simp [chLt] at h1 h2 ⊢
  omega

theorem chLt_connex {a b : Char} (h1 : chLt a b = false) (h2 : chLt b a = false) : a = b := by
  simp [chLt] at h1 h2
  exact char_toNat_inj (by omega)

theorem clLt_asymm : ∀ l₁ l₂ : List Char, clLt l₁ l₂ = true → clLt l₂ l₁ = false := by
  intro l₁
  induction l₁ with
  | nil =>
    intro l₂ h
    cases l₂ with
    | nil => simp [clLt] at h
    | cons b bs => simp [clLt]
  | cons a as ih =>
    intro l₂ h
    cases l₂ with
    | nil => simp [clLt] at h
    | cons b bs =>
      simp only [clLt] at h ⊢
      by_cases hab : a = b
      · subst hab
        rw [if_pos rfl] at h ⊢
        exact ih bs h
      · rw [if_neg hab] at h
        rw [if_neg (fun hba => hab hba.symm)]
        exact chLt_asymm h

theorem clLt_trans : ∀ l₁ l₂ l₃ : List Char,
    clLt l₁ l₂ = true → clLt l₂ l₃ = true → clLt l₁ l₃ = true := by
  intro l₁
  induction l₁ with
  | nil =>
    intro l₂ l₃ h12 h23
    cases l₂ with
    | nil => simp [clLt] at h12
    | cons b bs =>
      cases l₃ with
      | nil => simp [clLt] at h23
      | cons c cs => simp [clLt]
  | cons a as ih =>
    intro l₂ l₃ h12 h23
    cases l₂ with
    | nil => simp [clLt] at h12
    | cons b bs =>
      cases l₃ with
      | nil => simp [clLt] at h23
      | cons c cs =>
        simp only [clLt] at h12 h23 ⊢
        by_cases hab : a = b
        · subst hab
          rw [if_pos rfl] at h12
          by_cases hac : a = c
          · subst hac
            rw [if_pos rfl] at h23 ⊢
            exact ih bs cs h12 h23
          · rw [if_neg hac] at h23 ⊢
            exact h23
        · rw [if_neg hab] at h12
          by_cases hbc : b = c
          · subst hbc
            rw [if_neg hab]
            exact h12
          · rw [if_neg hbc] at h23
            by_cases hac : a = c
            · exfalso
              subst hac
              have := chLt_asymm h12
              rw [this] at h23
              exact Bool.noConfusion h23
            · rw [if_neg hac]
              exact chLt_trans h12 h23

theorem clLt_connex : ∀ l₁ l₂ : List Char,
    clLt l₁ l₂ = false → clLt l₂ l₁ = false → l₁ = l₂ := by
  intro l₁
  induction l₁ with
  | nil =>
    intro l₂ h12 _
    cases l₂ with
    | nil => rfl
    | cons b bs => simp [clLt] at h12
  | cons a as ih =>
    intro l₂ h12 h21
    cases l₂ with
    | nil => simp [clLt] at h21
    | cons b bs =>
      simp only [clLt] at h12 h21
      by_cases hab : a = b
      · subst hab
        rw [if_pos rfl] at h12 h21
        rw [ih bs h12 h21]
      · rw [if_neg hab] at h12
        rw [if_neg (fun h => hab h.symm)] at h21
        exact absurd (chLt_connex h12 h21) hab

theorem strLeB_total (s t : String) : strLeB s t = true ∨ strLeB t s = true := by
  by_cases h : clLt t.data s.data = true
  · right
    simp [strLeB, strLtB, clLt_asymm _ _ h]
  · left
    simp only [strLeB, strLtB, Bool.not_eq_true']
    simpa using h

theorem strLeB_trans {a b c : String}
    (h1 : strLeB a b = true) (h2 : strLeB b c = true) : strLeB a c = true := by
  simp only [strLeB, strLtB, Bool.not_eq_true'] at h1 h2 ⊢
  by_contra hc
  rw [Bool.not_eq_false] at hc
  by_cases hab : clLt a.data b.data = true
  · have h3 := clLt_trans _ _ _ hc hab
    rw [h2] at h3
    exact Bool.noConfusion h3
  · have hab' : clLt a.data b.data = false := by simpa using hab
    have heq : a.data = b.data := clLt_connex _ _ hab' h1
    rw [heq] at hc
    rw [h2] at hc
    exact Bool.noConfusion hc

theorem strLtB_of_le_ne {a b : String} (h1 : strLeB a b = true) (h2 : a ≠ b) :
    strLtB a b = true := by
  simp only [strLeB, Bool.not_eq_true'] at h1
  by_contra hc
  have hc' : strLtB a b = false := by simpa using hc
  simp only [strLtB] at h1 hc'
  exact h2 (String.ext (clLt_connex _ _ hc' h1))

theorem strLtB_asymm {a b : String} (h1 : strLtB a b = true) (h2 : strLtB b a = true) : False := by
  simp only [strLtB] at h1 h2
  have := clLt_asymm _ _ h1
  rw [this] at h2
  exact Bool.noConfusion h2

theorem consolidate_fold_map (l : List TableMetadata) :
    ∀ acc : List (String × TableMetadata),
      (∀ e ∈ l, e.NormalizedName ≠ "") →
      (∀ e ∈ l, e.NormalizedName ∉ acc.map Prod.fst) →
      (l.map TableMetadata.NormalizedName).Nodup →
      l.foldl consolidateStep acc
        = acc ++ l.map (fun e => (e.NormalizedName, cloneTableMetadata e)) := by
  induction l with
  | nil => intro acc _ _ _; simp
  | cons e es ih =>
    intro acc hne hfresh hnd
    have hne0 : e.NormalizedName ≠ "" := hne e (List.mem_cons_self e es)
    have hlook : lookupA acc e.NormalizedName = none :=
      (lookupA_eq_none_iff _ acc).mpr (hfresh e (List.mem_cons_self e es))
    have hstep : consolidateStep acc e = acc ++ [(e.NormalizedName, cloneTableMetadata e)] := by
      simp only [consolidateStep, normForEntry, if_neg hne0, hlook]
    rw [List.foldl_cons, hstep]
    simp only [List.map_cons, List.nodup_cons] at hnd
    rw [ih (acc ++ [(e.NormalizedName, cloneTableMetadata e)])
      (fun x hx => hne x (List.mem_cons_of_mem e hx)) ?_ hnd.2]
    · simp
    · intro x hx
      simp only [List.map_append, List.mem_append]
      intro hmem
      rcases hmem with hmem | hmem
      · exact hfresh x (List.mem_cons_of_mem e hx) hmem
      · simp only [List.map_cons, List.map_nil, List.mem_singleton] at hmem
        exact hnd.1 (hmem ▸ List.mem_map_of_mem TableMetadata.NormalizedName hx)

theorem consolidate_entityList_eq (l : List TableMetadata)
    (hne : ∀ e ∈ l, e.NormalizedName ≠ "")
    (hnd : (l.map TableMetadata.NormalizedName).Nodup) :
    (consolidateByNormalizedName l).EntityList
      = (l.map (fun e => stabilizeTableMetadata (cloneTableMetadata e))).insertionSort
          (fun a b => strLeB a.NormalizedName b.NormalizedName = true) := by
  simp only [consolidateByNormalizedName]
  rw [consolidate_fold_map l [] hne (by simp) hnd]
  simp only [List.nil_append, List.map_map]
  rfl

/-- C1 counterexample: the two encounter orders of the same two records
(same normalized name X, one relation each) are permutations of each other
yet consolidation followed by stabilization serializes different entity
lists: relations keep encounter order (they are never sorted) and the
merged record keeps the first-seen struct name. -/
theorem consolidate_order_counterexample :
    ([cexTableA, cexTableB].Perm [cexTableB, cexTableA])
    ∧ (consolidateByNormalizedName [cexTableA, cexTableB]).EntityList
        ≠ (consolidateByNormalizedName [cexTableB, cexTableA]).EntityList := by
  constructor
  · decide
  · decide

/-- C1 (amended): when every record carries a non-empty normalized name
and no two records share one (so no merge happens), consolidation followed
by stabilization produces the same serialized entity list for any two
encounter orders of the same records. With duplicate normalized names the
guarantee fails: the merged record's relation order and first-wins scalar
fields depend on the encounter order. -/
theorem consolidate_perm_invariant (l₁ l₂ : List TableMetadata)
    (hperm : l₁.Perm l₂)
    (hne : ∀ e ∈ l₁, e.NormalizedName ≠ "")
    (hnd : (l₁.map TableMetadata.NormalizedName).Nodup) :
    (consolidateByNormalizedName l₁).EntityList
      = (consolidateByNormalizedName l₂).EntityList := by
  have hne₂ : ∀ e ∈ l₂, e.NormalizedName ≠ "" := fun e he => hne e (hperm.mem_iff.mpr he)
  have hnd₂ : (l₂.map TableMetadata.NormalizedName).Nodup :=
    ((hperm.map TableMetadata.NormalizedName).nodup_iff).mp hnd
  rw [consolidate_entityList_eq l₁ hne hnd, consolidate_entityList_eq l₂ hne₂ hnd₂]
  haveI htotal : IsTotal TableMetadata
      (fun a b => strLeB a.NormalizedName b.NormalizedName = true) :=
    ⟨fun a b => strLeB_total _ _⟩
  haveI htrans : IsTrans TableMetadata
      (fun a b => strLeB a.NormalizedName b.NormalizedName = true) :=
    ⟨fun a b c => strLeB_trans⟩
  haveI hanti : IsAntisymm TableMetadata
      (fun a b => strLtB a.NormalizedName b.NormalizedName = true) :=
    ⟨fun a b h1 h2 => absurd (strLtB_asymm h1 h2) not_false⟩
  have hgn : ∀ e : TableMetadata,
      (stabilizeTableMetadata (cloneTableMetadata e)).NormalizedName = e.NormalizedName :=
    fun e => rfl
  have hperm' :
      ((l₁.map (fun e => stabilizeTableMetadata (cloneTableMetadata e))).insertionSort
        (fun a b => strLeB a.NormalizedName b.NormalizedName = true)).Perm
      ((l₂.map (fun e => stabilizeTableMetadata (cloneTableMetadata e))).insertionSort
        (fun a b => strLeB a.NormalizedName b.NormalizedName = true)) :=
    ((List.perm_insertionSort
        (fun a b : TableMetadata => strLeB a.NormalizedName b.NormalizedName = true)
        (l₁.map (fun e => stabilizeTableMetadata (cloneTableMetadata e)))).trans
      ((hperm.map (fun e => stabilizeTableMetadata (cloneTableMetadata e))).trans
        (List.perm_insertionSort
          (fun a b : TableMetadata => strLeB a.NormalizedName b.NormalizedName = true)
          (l₂.map (fun e => stabilizeTableMetadata (cloneTableMetadata e)))).symm))
  have hnames : ∀ l : List TableMetadata, (l.map TableMetadata.NormalizedName).Nodup →
      ∀ hs : List (TableMetadata),
        hs.Perm (l.map (fun e => stabilizeTableMetadata (cloneTableMetadata e))) →
        (hs.map TableMetadata.NormalizedName).Nodup := by
    intro l hl hs hp
    have h1 : ((l.map (fun e => stabilizeTableMetadata (cloneTableMetadata e))).map
        TableMetadata.NormalizedName).Nodup := by
      rw [List.map_map]
      exact hl
    exact ((hp.map TableMetadata.NormalizedName).nodup_iff).mpr h1
  have hpw : ∀ l : List TableMetadata, (l.map TableMetadata.NormalizedName).Nodup →
      List.Pairwise (fun a b : TableMetadata =>
        strLtB a.NormalizedName b.NormalizedName = true)
        ((l.map (fun e => stabilizeTableMetadata (cloneTableMetadata e))).insertionSort
          (fun a b => strLeB a.NormalizedName b.NormalizedName = true)) := by
    intro l hl
    have hsorted := List.sorted_insertionSort
      (fun a b : TableMetadata => strLeB a.NormalizedName b.NormalizedName = true)
      (l.map (fun e => stabilizeTableMetadata (cloneTableMetadata e)))
    have hnd' := hnames l hl _ (List.perm_insertionSort
      (fun a b : TableMetadata => strLeB a.NormalizedName b.NormalizedName = true)
      (l.map (fun e => stabilizeTableMetadata (cloneTableMetadata e))))
    have hne' : List.Pairwise (fun a b : TableMetadata =>
        a.NormalizedName ≠ b.NormalizedName)
        ((l.map (fun e => stabilizeTableMetadata (cloneTableMetadata e))).insertionSort
          (fun a b => strLeB a.NormalizedName b.NormalizedName = true)) :=
      List.pairwise_map.mp hnd'
    exact (hsorted.and hne').imp (fun h => strLtB_of_le_ne h.1 h.2)
  exact List.eq_of_perm_of_sorted hperm' (hpw l₁ hnd) (hpw l₂ hnd₂)

/-- C1 witness: two records of distinct normalized names consolidate to
the same entity list in either encounter order. -/
theorem consolidate_perm_invariant_witness :
    (consolidateByNormalizedName [cexTableA, cexTableC]).EntityList
      = (consolidateByNormalizedName [cexTableC, cexTableA]).EntityList :=
  consolidate_perm_invariant [cexTableA, cexTableC] [cexTableC, cexTableA]
    (by decide) (by decide) (by decide)

/-- C7 counterexample: in a content map with no application/json entry
whose lexicographically first media type is aaa/bbb (an integer schema),
the code returns the application/ld+json schema (a string schema), not
the lexicographically first one, refuting the claimed two-step rule. -/
theorem pickJSONMediaSchema_ld_counterexample :
    lookupA cexContent "application/json" = none
    ∧ ((cexContent.map Prod.fst).insertionSort (fun a b => strLeB a b = true)).headD ""
        = "aaa/bbb"
    ∧ ((lookupA cexContent "aaa/bbb").bind OAMediaType.schema).map OASchema.ty
        = some "integer"
    ∧ (pickJSONMediaSchema cexContent).map OASchema.ty = some "string"
    ∧ ("integer" : String) ≠ "string" := by
  refine ⟨rfl, by decide, rfl, rfl, by decide⟩

/-- C7 (amended): the response schema is chosen by checking status codes
200, 201, 202, 204 in that order, then default, then the
lexicographically first remaining code; within a chosen request body or
response the application/json media type is preferred, then
application/ld+json, with a final fallback to the lexicographically first
available media type. -/
theorem pickResponse_priority (resps : List (String × OAResponse))
    (content : List (String × OAMediaType)) :
    (∀ mt, lookupA content "application/json" = some mt →
      pickJSONMediaSchema content = mt.schema)
    ∧ (lookupA content "application/json" = none →
        ∀ mt, lookupA content "application/ld+json" = some mt →
          pickJSONMediaSchema content = mt.schema)
    ∧ (lookupA content "application/json" = none →
        lookupA content "application/ld+json" = none →
        ∀ k ks, (content.map Prod.fst).insertionSort (fun a b => strLeB a b = true) = k :: ks →
          pickJSONMediaSchema content = (lookupA content k).bind OAMediaType.schema)
    ∧ (∀ r, lookupA resps "200" = some r →
        pickOpenAPIResponseSchemaRefName resps
          = openAPISchemaRefOrItemRef (pickJSONMediaSchema r.content))
    ∧ (lookupA resps "200" = none → ∀ r, lookupA resps "201" = some r →
        pickOpenAPIResponseSchemaRefName resps
          = openAPISchemaRefOrItemRef (pickJSONMediaSchema r.content))
    ∧ (lookupA resps "200" = none → lookupA resps "201" = none →
        ∀ r, lookupA resps "202" = some r →
        pickOpenAPIResponseSchemaRefName resps
          = openAPISchemaRefOrItemRef (pickJSONMediaSchema r.content))
    ∧ (lookupA resps "200" = none → lookupA resps "201" = none →
        lookupA resps "202" = none → ∀ r, lookupA resps "204" = some r →
        pickOpenAPIResponseSchemaRefName resps
          = openAPISchemaRefOrItemRef (pickJSONMediaSchema r.content))
    ∧ (lookupA resps "200" = none → lookupA resps "201" = none →
        lookupA resps "202" = none → lookupA resps "204" = none →
        ∀ r, lookupA resps "default" = some r →
        pickOpenAPIResponseSchemaRefName resps
          = openAPISchemaRefOrItemRef (pickJSONMediaSchema r.content))
    ∧ (lookupA resps "200" = none → lookupA resps "201" = none →
        lookupA resps "202" = none → lookupA resps "204" = none →
        lookupA resps "default" = none →
        ∀ k ks, (resps.map Prod.fst).insertionSort (fun a b => strLeB a b = true) = k :: ks →
        ∀ r, lookupA resps k = some r →
        pickOpenAPIResponseSchemaRefName resps
          = openAPISchemaRefOrItemRef (pickJSONMediaSchema r.content)) := by
  refine ⟨?_, ?_, ?_, ?_, ?_, ?_, ?_, ?_, ?_⟩
  · intro mt h
    cases content with
    | nil => simp [lookupA] at h
    | cons p ps => simp [pickJSONMediaSchema, h]
  · intro h1 mt h2
    cases content with
    | nil => simp [lookupA] at h2
    | cons p ps => simp [pickJSONMediaSchema, h1, h2]
  · intro h1 h2 k ks hsort
    cases content with
    | nil => simp at hsort
    | cons p ps =>
      simp only [pickJSONMediaSchema, List.isEmpty_cons, Bool.false_eq_true, if_false, h1, h2,
        hsort]
      cases hl : lookupA (p :: ps) k <;> simp [hl]
  · intro r h
    cases resps with
    | nil => simp [lookupA] at h
    | cons p ps => simp [pickOpenAPIResponseSchemaRefName, h]
  · intro h0 r h
    cases resps with
    | nil => simp [lookupA] at h
    | cons p ps => simp [pickOpenAPIResponseSchemaRefName, h0, h]
  · intro h0 h1 r h
    cases resps with
    | nil => simp [lookupA] at h
    | cons p ps => simp [pickOpenAPIResponseSchemaRefName, h0, h1, h]
  · intro h0 h1 h2 r h
    cases resps with
    | nil => simp [lookupA] at h
    | cons p ps => simp [pickOpenAPIResponseSchemaRefName, h0, h1, h2, h]
  · intro h0 h1 h2 h3 r h
    cases resps with
    | nil => simp [lookupA] at h
    | cons p ps => simp [pickOpenAPIResponseSchemaRefName, h0, h1, h2, h3, h]
  · intro h0 h1 h2 h3 h4 k ks hsort r h
    cases resps with
    | nil => simp [lookupA] at h
    | cons p ps =>
      simp only [pickOpenAPIResponseSchemaRefName, List.isEmpty_cons, Bool.false_eq_true,
        if_false, h0, h1, h2, h3, h4]
      rw [hsort]
      simp [h]

/-- C7 witness: a response map with a 200 entry carrying an
application/json media type resolves to that schema's reference name. -/
theorem pickResponse_priority_witness :
    pickOpenAPIResponseSchemaRefName
      [("200", { description := "",
                 content := [("application/json", { schema := some (oaRefTo "User") })] })]
      = "User" := by
  have h := (pickResponse_priority
      [("200", { description := "",
                 content := [("application/json", { schema := some (oaRefTo "User") })] })]
      []).2.2.2.1
      { description := "",
        content := [("application/json", { schema := some (oaRefTo "User") })] } rfl
  rw [h]
  decide

/-- C3 counterexample: for POST /users with resolved request schema name
CreateUserReq, the inferred entity name normalizes to CreateUser, not
User (the verb Create is only stripped as a suffix), so the operation is
attached to no entity: the consolidated User record's operations list
stays empty. -/
theorem createUserReq_not_attached_counterexample :
    normalizeEntityName (inferEntityNameForOperation
      (openAPIOperationInfo "/users" "POST" (oaOpWithReq "CreateUserReq"))) = "CreateUser"
    ∧ ("CreateUser" : String) ≠ "User"
    ∧ (parseOpenAPIModel specCreateUserReq).map (fun p => (p.1, p.2.Operations))
        = [("User", [])] := by
  refine ⟨rfl, by decide, rfl⟩

/-- C3 (amended): an API operation with method POST and path /users whose
resolved request schema name is UserCreateReq (the GoFrame convention:
entity first, verb and Req as suffixes) is assigned the normalized entity
name User and is attached to the operations list of the consolidated User
entity record. -/
theorem userCreateReq_attached :
    normalizeEntityName (inferEntityNameForOperation
      (openAPIOperationInfo "/users" "POST" (oaOpWithReq "UserCreateReq"))) = "User"
    ∧ (parseOpenAPIModel specUserCreateReq).map
        (fun p => (p.1, p.2.Operations.map (fun o => (o.Method, o.Path, o.RequestSchema))))
        = [("User", [("POST", "/users", "UserCreateReq")])] :=
  ⟨rfl, rfl⟩

theorem foldl_preserve {α β : Type} (P : β → Prop) (step : β → α → β) :
    ∀ (l : List α) (b : β), P b → (∀ b' a, a ∈ l → P b' → P (step b' a)) →
      P (l.foldl step b) := by
  intro l
  induction l with
  | nil => intro b hb _; exact hb
  | cons a as ih =>
    intro b hb hstep
    exact ih (step b a) (hstep b a (List.mem_cons_self a as) hb)
      (fun b' x hx => hstep b' x (List.mem_cons_of_mem a hx))

theorem lookupA_mem {α : Type} (k : String) (v : α) :
    ∀ m : List (String × α), lookupA m k = some v → (k, v) ∈ m := by
  intro m
  induction m with
  | nil => intro h; simp [lookupA] at h
  | cons p rest ih =>
    obtain ⟨k', v'⟩ := p
    intro h
    simp only [lookupA] at h
    split_ifs at h with hk
    · obtain rfl : v' = v := by simpa using h
      subst hk
      exact List.mem_cons_self _ _
    · exact List.mem_cons_of_mem _ (ih h)

theorem updateAssoc_mem {α : Type} (k : String) (w : α) :
    ∀ (m : List (String × α)) (p : String × α),
      p ∈ updateAssoc m k w → p ∈ m ∨ p = (k, w) := by
  intro m
  induction m with
  | nil => intro p h; simp [updateAssoc] at h
  | cons q rest ih =>
    obtain ⟨k', v⟩ := q
    intro p h
    simp only [updateAssoc] at h
    split_ifs at h with hk
    · rcases List.mem_cons.mp h with h | h
      · exact Or.inr h
      · exact Or.inl (List.mem_cons_of_mem _ h)
    · rcases List.mem_cons.mp h with h | h
      · exact Or.inl (h ▸ List.mem_cons_self _ _)
      · rcases ih p h with h | h
        · exact Or.inl (List.mem_cons_of_mem _ h)
        · exact Or.inr h

theorem appendOpAt_inv (m : List (String × List OperationInfo)) (k : String)
    (oi : OperationInfo)
    (hm : ∀ pr ∈ m, ∀ o ∈ pr.2, normalizeEntityName (inferEntityNameForOperation o) = pr.1)
    (hoi : normalizeEntityName (inferEntityNameForOperation oi) = k) :
    ∀ pr ∈ appendOpAt m k oi, ∀ o ∈ pr.2,
      normalizeEntityName (inferEntityNameForOperation o) = pr.1 := by
  intro pr hpr o ho
  simp only [appendOpAt] at hpr
  cases hl : lookupA m k with
  | some ops =>
    rw [hl] at hpr
    rcases updateAssoc_mem k (ops ++ [oi]) m pr hpr with h | h
    · exact hm pr h o ho
    · subst h
      simp only [List.mem_append, List.mem_singleton] at ho
      rcases ho with ho | ho
      · exact hm (k, ops) (lookupA_mem k ops m hl) o ho
      · subst ho; exact hoi
  | none =>
    rw [hl] at hpr
    rcases List.mem_append.mp hpr with h | h
    · exact hm pr h o ho
    · simp only [List.mem_singleton] at h
      subst h
      simp only [List.mem_singleton] at ho
      subst ho
      exact hoi

theorem opsByNorm_inv (spec : OASpec) :
    ∀ pr ∈ spec.paths.foldl
        (fun m pm =>
          pm.2.foldl
            (fun m mo =>
              let oi := openAPIOperationInfo pm.1 (strToUpper mo.1) mo.2
              let norm := normalizeEntityName (inferEntityNameForOperation oi)
              if norm = "" then m else appendOpAt m norm oi)
            m)
        ([] : List (String × List OperationInfo)),
      ∀ o ∈ pr.2, normalizeEntityName (inferEntityNameForOperation o) = pr.1 := by
  have hstep : ∀ (m : List (String × List OperationInfo))
      (pm : String × List (String × OAOperation)), pm ∈ spec.paths →
      (∀ pr ∈ m, ∀ o ∈ pr.2, normalizeEntityName (inferEntityNameForOperation o) = pr.1) →
      ∀ pr ∈ pm.2.foldl
          (fun m mo =>
            let oi := openAPIOperationInfo pm.1 (strToUpper mo.1) mo.2
            let norm := normalizeEntityName (inferEntityNameForOperation oi)
            if norm = "" then m else appendOpAt m norm oi)
          m,
        ∀ o ∈ pr.2, normalizeEntityName (inferEntityNameForOperation o) = pr.1 := by
    intro m pm _ hm
    have hinner : ∀ (m' : List (String × List OperationInfo))
        (mo : String × OAOperation), mo ∈ pm.2 →
        (∀ pr ∈ m', ∀ o ∈ pr.2, normalizeEntityName (inferEntityNameForOperation o) = pr.1) →
        ∀ pr ∈ (let oi := openAPIOperationInfo pm.1 (strToUpper mo.1) mo.2
                let norm := normalizeEntityName (inferEntityNameForOperation oi)
                if norm = "" then m' else appendOpAt m' norm oi),
          ∀ o ∈ pr.2, normalizeEntityName (inferEntityNameForOperation o) = pr.1 := by
      intro m' mo _ hm'
      by_cases hz : normalizeEntityName (inferEntityNameForOperation
          (openAPIOperationInfo pm.1 (strToUpper mo.1) mo.2)) = ""
      · simpa [hz] using hm'
      · simpa [hz] using appendOpAt_inv m' _ _ hm' rfl
    exact foldl_preserve
      (fun m : List (String × List OperationInfo) => ∀ pr ∈ m, ∀ o ∈ pr.2,
        normalizeEntityName (inferEntityNameForOperation o) = pr.1)
      _ pm.2 m hm hinner
  exact foldl_preserve
    (fun m : List (String × List OperationInfo) => ∀ pr ∈ m, ∀ o ∈ pr.2,
      normalizeEntityName (inferEntityNameForOperation o) = pr.1)
    _ spec.paths [] (by intro pr hpr; simp at hpr) hstep

theorem out_fold_mem (spec : OASpec) :
    ∀ (qs : List (String × OASchema)) (m : SchemaMap) (p : String × TableMetadata),
      p ∈ qs.foldl (fun m q => putSchema m (openAPISchemaToTableMetadata spec q.1 q.2)) m →
      p ∈ m ∨ ∃ q ∈ qs, p.2 = openAPISchemaToTableMetadata spec q.1 q.2 := by
  intro qs
  induction qs with
  | nil => intro m p hp; exact Or.inl hp
  | cons q qs ih =>
    intro m p hp
    rw [List.foldl_cons] at hp
    rcases ih (putSchema m (openAPISchemaToTableMetadata spec q.1 q.2)) p hp
        with h | ⟨q', hq', heq⟩
    · rw [putSchema] at h
      rcases List.mem_append.mp h with h | h
      · exact Or.inl h
      · rcases List.mem_singleton.mp h with h
        exact Or.inr ⟨q, List.mem_cons_self q qs, by rw [h]⟩
    · exact Or.inr ⟨q', List.mem_cons_of_mem q hq', heq⟩

theorem schemaToMeta_operations (spec : OASpec) (n : String) (s : OASchema) :
    (openAPISchemaToTableMetadata spec n s).Operations = [] := by
  simp only [openAPISchemaToTableMetadata]

theorem schemaToMeta_normalizedName (spec : OASpec) (n : String) (s : OASchema) :
    (openAPISchemaToTableMetadata spec n s).NormalizedName = normalizeEntityName n := by
  simp only [openAPISchemaToTableMetadata]

theorem attach_no_match (out : SchemaMap) (opsByNorm : List (String × List OperationInfo))
    (oi : OperationInfo)
    (hout : ∀ p ∈ out, p.2.Operations = []
      ∧ normalizeEntityName (inferEntityNameForOperation oi) ≠ p.2.NormalizedName)
    (hops : ∀ pr ∈ opsByNorm, ∀ o ∈ pr.2,
      normalizeEntityName (inferEntityNameForOperation o) = pr.1) :
    ∀ p ∈ out.map (fun q =>
      match lookupA opsByNorm q.2.NormalizedName with
      | some ops => (q.1, { q.2 with Operations := q.2.Operations ++ ops })
      | none => q), oi ∉ p.2.Operations := by
  intro p hp hoi
  obtain ⟨p0, hp0, hpeq⟩ := List.mem_map.mp hp
  obtain ⟨hops0, hnm⟩ := hout p0 hp0
  cases hl : lookupA opsByNorm p0.2.NormalizedName with
  | none =>
    rw [hl] at hpeq
    subst hpeq
    rw [hops0] at hoi
    exact (List.not_mem_nil oi) hoi
  | some ops =>
    rw [hl] at hpeq
    subst hpeq
    simp only [hops0, List.nil_append] at hoi
    have := hops (p0.2.NormalizedName, ops) (lookupA_mem _ ops opsByNorm hl) oi hoi
    exact hnm this

/-- C10 (confirmed): an operation whose inferred entity name, after
normalization, equals the normalized name of no component schema is
attached to no entity and appears nowhere in the SchemaMap returned by
the OpenAPI parsing pipeline; the pipeline returns successfully with no
error value. -/
theorem unmatched_operation_dropped (spec : OASpec) (oi : OperationInfo)
    (hmz : ∀ q ∈ spec.schemas,
      normalizeEntityName (inferEntityNameForOperation oi) ≠ normalizeEntityName q.1) :
    ∀ p ∈ parseOpenAPIModel spec, oi ∉ p.2.Operations := by
  simp only [parseOpenAPIModel]
  apply attach_no_match
  · intro p hp
    rcases out_fold_mem spec spec.schemas [] p hp with h | ⟨q, hq, heq⟩
    · simp at h
    · rw [heq, schemaToMeta_operations, schemaToMeta_normalizedName]
      exact ⟨rfl, hmz q hq⟩
  · exact opsByNorm_inv spec

/-- C10 witness: the CreateUser-normalized operation of the C3 scenario
matches no component schema of the document and is found in no record. -/
theorem unmatched_operation_dropped_witness :
    openAPIOperationInfo "/users" "POST" (oaOpWithReq "CreateUserReq")
        ∉ (match (parseOpenAPIModel specCreateUserReq) with
           | [] => []
           | p :: _ => p.2.Operations) := by
  have h := unmatched_operation_dropped specCreateUserReq
    (openAPIOperationInfo "/users" "POST" (oaOpWithReq "CreateUserReq"))
    (by decide)
  intro hmem
  cases hp : parseOpenAPIModel specCreateUserReq with
  | nil => rw [hp] at hmem; exact (List.not_mem_nil _) hmem
  | cons p ps =>
    rw [hp] at hmem
    exact h p (by rw [hp]; exact List.mem_cons_self p ps) hmem

theorem sizeListOA_lt_of_mem {x : OASchema} :
    ∀ l : List OASchema, x ∈ l → OASchema.size x < sizeListOA l := by
  intro l
  induction l with
  | nil => intro h; simp at h
  | cons y ys ih =>
    intro h
    rcases List.mem_cons.mp h with rfl | h
    · simp only [sizeListOA]; omega
    · have := ih h
      simp only [sizeListOA]; omega

theorem sizePropsOA_lt_of_mem {k : String} {v : OASchema} :
    ∀ l : List (String × OASchema), (k, v) ∈ l → OASchema.size v < sizePropsOA l := by
  intro l
  induction l with
  | nil => intro h; simp at h
  | cons p ps ih =>
    obtain ⟨k', v'⟩ := p
    intro h
    rcases List.mem_cons.mp h with heq | h
    · cases heq
      simp only [sizePropsOA]; omega
    · have := ih h
      simp only [sizePropsOA]; omega

theorem size_lt_of_mem_allOf {s x : OASchema} (h : x ∈ s.allOf) :
    OASchema.size x < OASchema.size s := by
  cases s with
  | mk core props items al o an =>
    simp only [OASchema.allOf] at h
    have := sizeListOA_lt_of_mem al h
    simp only [OASchema.size]
    omega

theorem size_lt_of_mem_oneOf {s x : OASchema} (h : x ∈ s.oneOf) :
    OASchema.size x < OASchema.size s := by
  cases s with
  | mk core props items al o an =>
    simp only [OASchema.oneOf] at h
    have := sizeListOA_lt_of_mem o h
    simp only [OASchema.size]
    omega

theorem size_lt_of_mem_anyOf {s x : OASchema} (h : x ∈ s.anyOf) :
    OASchema.size x < OASchema.size s := by
  cases s with
  | mk core props items al o an =>
    simp only [OASchema.anyOf] at h
    have := sizeListOA_lt_of_mem an h
    simp only [OASchema.size]
    omega

theorem size_le_of_lookup {spec : OASpec} {n : String} {s₂ : OASchema}
    (h : lookupA spec.schemas n = some s₂) :
    OASchema.size s₂ ≤ sizePropsOA spec.schemas :=
  le_of_lt (sizePropsOA_lt_of_mem spec.schemas (lookupA_mem n s₂ spec.schemas h))

theorem filter_len_mono {α : Type} (p q : α → Bool) (himp : ∀ a, q a = true → p a = true) :
    ∀ l : List α, (l.filter q).length ≤ (l.filter p).length := by
  intro l
  induction l with
  | nil => simp
  | cons a as ih =>
    have hih := ih
    cases hq : q a
    · cases hp : p a <;> simp [List.filter_cons, hq, hp] <;> omega
    · have hp := himp a hq
      simp [List.filter_cons, hq, hp]
      omega

theorem filter_len_lt {α : Type} (p q : α → Bool) (himp : ∀ a, q a = true → p a = true)
    (x : α) (hp : p x = true) (hq : q x = false) :
    ∀ l : List α, x ∈ l → (l.filter q).length < (l.filter p).length := by
  intro l
  induction l with
  | nil => intro h; simp at h
  | cons a as ih =>
    intro hmem
    rcases List.mem_cons.mp hmem with rfl | hmem
    · have hmono := filter_len_mono p q himp as
      simp [List.filter_cons, hp, hq]
      omega
    · have hrec := ih hmem
      cases hqa : q a
      · cases hpa : p a <;> simp [List.filter_cons, hqa, hpa] <;> omega
      · have hpa := himp a hqa
        simp [List.filter_cons, hqa, hpa]
        omega

theorem unvisitedCount_mono (spec : OASpec) (st st' : CollectSt)
    (h : st.visited ⊆ st'.visited) :
    unvisitedCount spec st' ≤ unvisitedCount spec st := by
  apply filter_len_mono
  intro a ha
  simp only [decide_eq_true_eq] at ha ⊢
  intro hmem
  exact ha (h hmem)

theorem unvisitedCount_insert_lt (spec : OASpec) (st : CollectSt) (name : String)
    (hmem : name ∈ spec.schemas.map Prod.fst) (hnv : ¬ name ∈ st.visited) :
    unvisitedCount spec { st with visited := st.visited ++ [name] } + 1
      ≤ unvisitedCount spec st := by
  have h := filter_len_lt
    (fun n => decide (¬ n ∈ st.visited))
    (fun n => decide (¬ n ∈ st.visited ++ [name]))
    (by
      intro a ha
      simp only [decide_eq_true_eq, List.mem_append, List.mem_singleton] at ha ⊢
      intro hmem2
      exact ha (Or.inl hmem2))
    name (by simpa using hnv) (by simp)
    (spec.schemas.map Prod.fst) hmem
  simpa [unvisitedCount] using h

theorem collectList_total (spec : OASpec) (N : Nat)
    (ih : ∀ (s : OASchema) (st : CollectSt), collectMeasure spec st s < N →
      ∃ st', collectFuel spec N s st = some st' ∧ st.visited ⊆ st'.visited) :
    ∀ (l : List OASchema) (st : CollectSt),
      (∀ x ∈ l, unvisitedCount spec st * (sizePropsOA spec.schemas + 1) + OASchema.size x < N) →
      ∃ st', l.foldlM (fun acc sub => collectFuel spec N sub acc) st = some st'
        ∧ st.visited ⊆ st'.visited := by
  intro l
  induction l with
  | nil =>
    intro st _
    exact ⟨st, rfl, fun a ha => ha⟩
  | cons x xs ihl =>
    intro st h
    obtain ⟨st1, hx, hsub1⟩ := ih x st (h x (List.mem_cons_self x xs))
    have hbnd : ∀ y ∈ xs,
        unvisitedCount spec st1 * (sizePropsOA spec.schemas + 1) + OASchema.size y < N := by
      intro y hy
      have hmono := unvisitedCount_mono spec st st1 hsub1
      have hbound := h y (List.mem_cons_of_mem x hy)
      have hmul : unvisitedCount spec st1 * (sizePropsOA spec.schemas + 1)
          ≤ unvisitedCount spec st * (sizePropsOA spec.schemas + 1) :=
        Nat.mul_le_mul_right _ hmono
      omega
    obtain ⟨st2, hxs, hsub2⟩ := ihl st1 hbnd
    refine ⟨st2, ?_, fun a ha => hsub2 (hsub1 ha)⟩
    rw [List.foldlM_cons, hx]
    simpa using hxs

theorem collectFuel_total (spec : OASpec) :
    ∀ N : Nat, ∀ (s : OASchema) (st : CollectSt), collectMeasure spec st s < N →
      ∃ st', collectFuel spec N s st = some st' ∧ st.visited ⊆ st'.visited := by
  intro N
  induction N with
  | zero => intro s st h; omega
  | succ N ih =>
    intro s st hmu
    by_cases href : s.ref = ""
    · simp only [collectFuel, href, decide_True, Bool.not_true, Bool.false_eq_true, if_false]
      have hall : ∀ x ∈ s.allOf,
          unvisitedCount spec { st with required := s.required.foldl addReq st.required }
              * (sizePropsOA spec.schemas + 1) + OASchema.size x < N := by
        intro x hx
        have hsz := size_lt_of_mem_allOf hx
        have heq : unvisitedCount spec
            { st with required := s.required.foldl addReq st.required }
            = unvisitedCount spec st := rfl
        rw [heq]
        simp only [collectMeasure] at hmu
        omega
      obtain ⟨st2, h2, hsub2⟩ := collectList_total spec N ih s.allOf
        { st with required := s.required.foldl addReq st.required } hall
      rw [h2]
      simp only [Option.some_bind]
      have hone : ∃ st3, (match s.oneOf with
          | [] => some st2
          | x :: _ => collectFuel spec N x st2) = some st3 ∧ st2.visited ⊆ st3.visited := by
        cases ho : s.oneOf with
        | nil => exact ⟨st2, rfl, fun a ha => ha⟩
        | cons x rest =>
          have hsz := size_lt_of_mem_oneOf (ho ▸ List.mem_cons_self x rest)
          have hmono : unvisitedCount spec st2 ≤ unvisitedCount spec st :=
            unvisitedCount_mono spec st st2 (fun a ha => hsub2 ha)
          have hb : collectMeasure spec st2 x < N := by
            simp only [collectMeasure] at hmu ⊢
            have hmul : unvisitedCount spec st2 * (sizePropsOA spec.schemas + 1)
                ≤ unvisitedCount spec st * (sizePropsOA spec.schemas + 1) :=
              Nat.mul_le_mul_right _ hmono
            omega
          obtain ⟨st3, h3, hsub3⟩ := ih x st2 hb
          exact ⟨st3, h3, hsub3⟩
      obtain ⟨st3, h3, hsub3⟩ := hone
      rw [h3]
      simp only [Option.some_bind]
      have hany : ∃ st4, (match s.anyOf with
          | [] => some st3
          | x :: _ => collectFuel spec N x st3) = some st4 ∧ st3.visited ⊆ st4.visited := by
        cases ha : s.anyOf with
        | nil => exact ⟨st3, rfl, fun a hb => hb⟩
        | cons x rest =>
          have hsz := size_lt_of_mem_anyOf (ha ▸ List.mem_cons_self x rest)
          have hmono : unvisitedCount spec st3 ≤ unvisitedCount spec st :=
            unvisitedCount_mono spec st st3 (fun a hb => hsub3 (hsub2 hb))
          have hb : collectMeasure spec st3 x < N := by
            simp only [collectMeasure] at hmu ⊢
            have hmul : unvisitedCount spec st3 * (sizePropsOA spec.schemas + 1)
                ≤ unvisitedCount spec st * (sizePropsOA spec.schemas + 1) :=
              Nat.mul_le_mul_right _ hmono
            omega
          obtain ⟨st4, h4, hsub4⟩ := ih x st3 hb
          exact ⟨st4, h4, hsub4⟩
      obtain ⟨st4, h4, hsub4⟩ := hany
      rw [h4]
      simp only [Option.some_bind]
      refine ⟨_, rfl, ?_⟩
      intro a ha
      exact hsub4 (hsub3 (hsub2 ha))
    · simp only [collectFuel, href, decide_False, Bool.not_false, if_true]
      by_cases hname : openAPIRefName s.ref = ""
      · rw [if_pos hname]
        exact ⟨st, rfl, fun a ha => ha⟩
      · rw [if_neg hname]
        by_cases hvis : openAPIRefName s.ref ∈ st.visited
        · rw [if_pos hvis]
          exact ⟨st, rfl, fun a ha => ha⟩
        · rw [if_neg hvis]
          cases hlook : lookupA spec.schemas (openAPIRefName s.ref) with
          | none =>
            exact ⟨_, rfl, fun a ha => List.mem_append.mpr (Or.inl ha)⟩
          | some s2 =>
            have hmem : openAPIRefName s.ref ∈ spec.schemas.map Prod.fst :=
              List.mem_map_of_mem Prod.fst (lookupA_mem _ _ spec.schemas hlook)
            have hdec := unvisitedCount_insert_lt spec st (openAPIRefName s.ref) hmem hvis
            have hsz := size_le_of_lookup hlook
            have hb : collectMeasure spec
                { st with visited := st.visited ++ [openAPIRefName s.ref] } s2 < N := by
              simp only [collectMeasure] at hmu ⊢
              have e2 : (unvisitedCount spec
                  { st with visited := st.visited ++ [openAPIRefName s.ref] } + 1)
                    * (sizePropsOA spec.schemas + 1)
                  ≤ unvisitedCount spec st * (sizePropsOA spec.schemas + 1) :=
                Nat.mul_le_mul_right _ hdec
              rw [Nat.succ_mul] at e2
              omega
            obtain ⟨st', h', hsub'⟩ := ih s2 _ hb
            refine ⟨st', h', ?_⟩
            intro a ha
            exact hsub' (List.mem_append.mpr (Or.inl ha))

/-- C8 (confirmed): collectOpenAPIObject terminates on every document,
cyclic reference graphs included: the fuelled rendition of the source's
recursion succeeds on the computable fuel bound collectMeasure + 1 (each
resolved reference is recorded in the visited set before recursing, so
reference steps strictly shrink the unvisited-component count, and the
allOf/oneOf/anyOf recursion descends the finite parsed tree), so the
fuel-free collectOpenAPIObject used by the pipeline is that total value. -/
theorem collectOpenAPIObject_terminates (spec : OASpec) (s : OASchema) (st : CollectSt) :
    ∃ st', collectFuel spec (collectMeasure spec st s + 1) s st = some st'
      ∧ st.visited ⊆ st'.visited
      ∧ collectOpenAPIObject spec s st = st' := by
  obtain ⟨st', h1, h2⟩ := collectFuel_total spec (collectMeasure spec st s + 1) s st (by omega)
  exact ⟨st', h1, h2, by simp [collectOpenAPIObject, h1]⟩
